import Mathlib

/-!
# Verification of the undirected graph analytics engine

A shallow embedding of the graph analytics engine specified for the
network-analysis notebook: an undirected, unweighted graph store with
degree statistics, BFS traversal, connected components, shortest paths,
centrality measures, maximal-clique enumeration (Bron–Kerbosch) and
Louvain community detection.  All definitions are modelled from the
specification, since the notebook delegates every algorithm to an
external library whose code is not part of the repository.
-/

namespace NetworkAnalysis

/-- Modelled from the spec: the error taxonomy of §7 (the library code the
notebook calls is external to the repository). -/
inductive GraphError where
  | notFound
  | noPath
  | disconnectedGraph
  | invalidEdge
deriving DecidableEq, Repr

/-- Modelled from the spec: the Graph Store (§4.1).  Nodes are opaque
identifiers (here `Nat`); edges are stored once per unordered pair. -/
structure Graph where
  nodes : List Nat
  edges : List (Nat × Nat)
deriving DecidableEq, Repr

/-- Adjacency test: `u` and `v` are joined by a stored edge in either
orientation. -/
def adjb (g : Graph) (u v : Nat) : Bool :=
  g.edges.any (fun e => (e.1 == u && e.2 == v) || (e.1 == v && e.2 == u))

/-- Modelled from the spec: `neighbors(u)` — the set of nodes adjacent
to `u` (§4.1), listed in node-insertion order. -/
def neighbors (g : Graph) (u : Nat) : List Nat :=
  g.nodes.filter (fun v => adjb g u v)

/-- Modelled from the spec: `degree(u) = |neighbors(u)|` (§4.1). -/
def degree (g : Graph) (u : Nat) : Nat :=
  (neighbors g u).length

/-- Modelled from the spec: `node_count()` (§4.1). -/
def node_count (g : Graph) : Nat :=
  g.nodes.length

/-- Modelled from the spec: `edge_count()` (§4.1). -/
def edge_count (g : Graph) : Nat :=
  g.edges.length

/-- Modelled from the spec: `density()` —
`edge_count() / (node_count()*(node_count()-1)/2)` for `node_count() ≥ 2`,
and `0` when `node_count() < 2` (§4.1). -/
def density (g : Graph) : ℚ :=
  if node_count g < 2 then 0
  else (edge_count g : ℚ) / (((node_count g : ℚ) * ((node_count g : ℚ) - 1)) / 2)

/-- Modelled from the spec: `add_edge(u, v)` — inserts nodes if absent,
inserts the edge if absent, idempotent; rejects a self-loop `u == v`
with `InvalidEdgeError` (§4.1 together with the documented reject policy
of §9). -/
def add_edge (g : Graph) (u v : Nat) : Except GraphError Graph :=
  if u = v then .error .invalidEdge
  else
    let ns1 := if u ∈ g.nodes then g.nodes else g.nodes ++ [u]
    let ns2 := if v ∈ ns1 then ns1 else ns1 ++ [v]
    if adjb g u v then .ok { nodes := ns2, edges := g.edges }
    else .ok { nodes := ns2, edges := g.edges ++ [(u, v)] }

/-- Modelled from the spec: bulk-loading a graph from an edge list (§3
lifecycle, §6 input interface): start from the empty graph and insert
every pair in order. -/
def from_edge_list (es : List (Nat × Nat)) : Except GraphError Graph :=
  es.foldlM (fun g e => add_edge g e.1 e.2) { nodes := [], edges := [] }

/-- Normalisation of an edge to an ordered pair, used to detect a
duplicate stored in the opposite orientation. -/
def normPair (e : Nat × Nat) : Nat × Nat :=
  (min e.1 e.2, max e.1 e.2)

/-- Well-formedness of a graph: distinct nodes, edges with distinct
endpoints that both belong to the node set, and no unordered pair stored
twice.  These are the §3 data-model invariants. -/
def WF (g : Graph) : Prop :=
  g.nodes.Nodup ∧
  (∀ e ∈ g.edges, e.1 ≠ e.2) ∧
  (∀ e ∈ g.edges, e.1 ∈ g.nodes ∧ e.2 ∈ g.nodes) ∧
  (g.edges.map normPair).Nodup

instance (g : Graph) : Decidable (WF g) := by
  unfold WF; infer_instance

theorem adjb_comm (g : Graph) (u v : Nat) : adjb g u v = adjb g v u := by
  unfold adjb
  induction g.edges with
  | nil => rfl
  | cons e es ih =>
      simp only [List.any_cons] at *
      rw [ih]
      cases h1 : (e.1 == u && e.2 == v) <;> cases h2 : (e.1 == v && e.2 == u) <;>
        simp [h1, h2]

theorem adjb_mem_left {g : Graph} (hw : WF g) {u v : Nat}
    (h : adjb g u v = true) : u ∈ g.nodes := by
  unfold adjb at h
  simp only [List.any_eq_true, Bool.or_eq_true, Bool.and_eq_true, beq_iff_eq] at h
  obtain ⟨e, he, h | h⟩ := h
  · exact h.1 ▸ (hw.2.2.1 e he).1
  · exact h.2 ▸ (hw.2.2.1 e he).2

theorem adjb_mem_right {g : Graph} (hw : WF g) {u v : Nat}
    (h : adjb g u v = true) : v ∈ g.nodes := by
  rw [adjb_comm] at h
  exact adjb_mem_left hw h

theorem adjb_ne {g : Graph} (hw : WF g) {u v : Nat}
    (h : adjb g u v = true) : u ≠ v := by
  unfold adjb at h
  simp only [List.any_eq_true, Bool.or_eq_true, Bool.and_eq_true, beq_iff_eq] at h
  obtain ⟨e, he, h | h⟩ := h
  · exact fun hh => (hw.2.1 e he) (by rw [h.1, h.2, hh])
  · exact fun hh => (hw.2.1 e he) (by rw [h.1, h.2, hh])

theorem adjb_irrefl {g : Graph} (hw : WF g) (u : Nat) : adjb g u u = false := by
  by_contra h
  exact adjb_ne hw (Bool.of_not_eq_false h) rfl

theorem mem_neighbors {g : Graph} {u v : Nat} :
    v ∈ neighbors g u ↔ v ∈ g.nodes ∧ adjb g u v = true := by
  unfold neighbors
  simp [List.mem_filter]

theorem neighbors_nodup {g : Graph} (hw : WF g) (u : Nat) :
    (neighbors g u).Nodup :=
  hw.1.filter _

/-! ## Edge counting: density bounds and completeness -/

/-- Completeness of a graph: every pair of distinct nodes is adjacent. -/
def IsComplete (g : Graph) : Prop :=
  ∀ u ∈ g.nodes, ∀ v ∈ g.nodes, u ≠ v → adjb g u v = true

instance (g : Graph) : Decidable (IsComplete g) := by
  unfold IsComplete; infer_instance

/-- Both orientations of every stored edge. -/
def oriented (g : Graph) : List (Nat × Nat) :=
  g.edges.flatMap (fun e => [(e.1, e.2), (e.2, e.1)])

theorem length_oriented (g : Graph) : (oriented g).length = 2 * edge_count g := by
  unfold oriented edge_count
  induction g.edges with
  | nil => rfl
  | cons e es ih => simp only [List.flatMap_cons, List.length_append, ih,
      List.length_cons, List.length_nil]; omega

theorem mem_oriented {g : Graph} {p : Nat × Nat} :
    p ∈ oriented g ↔ adjb g p.1 p.2 = true := by
  constructor
  · intro hp
    obtain ⟨e, he, hor⟩ := List.mem_flatMap.mp hp
    have hpe : p = (e.1, e.2) ∨ p = (e.2, e.1) := by simpa using hor
    unfold adjb
    rw [List.any_eq_true]
    rcases hpe with h | h <;> subst h <;> exact ⟨e, he, by simp⟩
  · intro h
    unfold adjb at h
    rw [List.any_eq_true] at h
    obtain ⟨e, he, he2⟩ := h
    simp only [Bool.or_eq_true, Bool.and_eq_true, beq_iff_eq] at he2
    refine List.mem_flatMap.mpr ⟨e, he, ?_⟩
    rcases he2 with ⟨h1, h2⟩ | ⟨h1, h2⟩
    · have : p = (e.1, e.2) := by cases p; simp_all
      simp [this]
    · have : p = (e.2, e.1) := by cases p; simp_all
      simp [this]

theorem normPair_eq_of_orient {e : Nat × Nat} {a b : Nat}
    (h : e = (a, b) ∨ e = (b, a)) : normPair e = normPair (a, b) := by
  rcases h with h | h <;> subst h <;> simp [normPair, min_comm, max_comm]

theorem oriented_nodup_aux (es : List (Nat × Nat))
    (h1 : ∀ e ∈ es, e.1 ≠ e.2) (h2 : (es.map normPair).Nodup) :
    (es.flatMap (fun e => [(e.1, e.2), (e.2, e.1)])).Nodup := by
  induction es with
  | nil => simp
  | cons e es ih =>
      simp only [List.map_cons, List.nodup_cons] at h2
      have hne : e.1 ≠ e.2 := h1 e (List.mem_cons_self e es)
      have htail : (es.flatMap (fun e => [(e.1, e.2), (e.2, e.1)])).Nodup :=
        ih (fun f hf => h1 f (List.mem_cons_of_mem e hf)) h2.2
      simp only [List.flatMap_cons]
      have hmem : ∀ a b : Nat, normPair (a, b) = normPair e →
          (a, b) ∉ es.flatMap (fun f => [(f.1, f.2), (f.2, f.1)]) := by
        intro a b hab hin
        obtain ⟨f, hf, hor⟩ := List.mem_flatMap.mp hin
        have hfe : (a, b) = (f.1, f.2) ∨ (a, b) = (f.2, f.1) := by simpa using hor
        have : normPair f = normPair (a, b) := by
          apply normPair_eq_of_orient
          rcases hfe with h | h
          · exact Or.inl (by cases f; cases h; rfl)
          · exact Or.inr (by cases f; cases h; rfl)
        refine h2.1 ?_
        refine List.mem_map.mpr ⟨f, hf, ?_⟩
        rw [this, hab]
      rw [show ([(e.1, e.2), (e.2, e.1)] ++
            es.flatMap (fun f => [(f.1, f.2), (f.2, f.1)])) =
          (e.1, e.2) :: (e.2, e.1) ::
            es.flatMap (fun f => [(f.1, f.2), (f.2, f.1)]) from rfl]
      rw [List.nodup_cons, List.nodup_cons]
      refine ⟨?_, ?_, htail⟩
      · intro hin
        rcases List.mem_cons.mp hin with h | h
        · exact hne (congrArg Prod.fst h)
        · exact hmem e.1 e.2 rfl h
      · intro hin
        exact hmem e.2 e.1 (by simp [normPair, min_comm, max_comm]) hin

theorem oriented_nodup {g : Graph} (hw : WF g) : (oriented g).Nodup :=
  oriented_nodup_aux g.edges hw.2.1 hw.2.2.2

/-- The node set as a finite set. -/
def nodesFinset (g : Graph) : Finset Nat := g.nodes.toFinset

theorem nodesFinset_card {g : Graph} (hw : WF g) :
    (nodesFinset g).card = node_count g :=
  List.toFinset_card_of_nodup hw.1

theorem oriented_subset_offDiag {g : Graph} (hw : WF g) :
    (oriented g).toFinset ⊆ (nodesFinset g).offDiag := by
  intro p hp
  rw [List.mem_toFinset] at hp
  have hadj := mem_oriented.mp hp
  rw [Finset.mem_offDiag]
  exact ⟨List.mem_toFinset.mpr (adjb_mem_left hw hadj),
    List.mem_toFinset.mpr (adjb_mem_right hw hadj), adjb_ne hw hadj⟩

theorem two_mul_edge_count_le {g : Graph} (hw : WF g) :
    2 * edge_count g ≤ node_count g * node_count g - node_count g := by
  have h1 : (oriented g).toFinset.card = 2 * edge_count g := by
    rw [List.toFinset_card_of_nodup (oriented_nodup hw), length_oriented]
  have h2 := Finset.card_le_card (oriented_subset_offDiag hw)
  rw [h1, Finset.offDiag_card, nodesFinset_card hw] at h2
  exact h2

theorem two_mul_edge_count_eq_iff {g : Graph} (hw : WF g) :
    2 * edge_count g = node_count g * node_count g - node_count g ↔
      IsComplete g := by
  constructor
  · intro h
    intro u hu v hv huv
    have h1 : (oriented g).toFinset.card = 2 * edge_count g := by
      rw [List.toFinset_card_of_nodup (oriented_nodup hw), length_oriented]
    have heq : (oriented g).toFinset = (nodesFinset g).offDiag := by
      apply Finset.eq_of_subset_of_card_le (oriented_subset_offDiag hw)
      rw [Finset.offDiag_card, nodesFinset_card hw, h1, h]
    have : (u, v) ∈ (oriented g).toFinset := by
      rw [heq, Finset.mem_offDiag]
      exact ⟨List.mem_toFinset.mpr hu, List.mem_toFinset.mpr hv, huv⟩
    exact mem_oriented.mp (List.mem_toFinset.mp this)
  · intro hc
    have heq : (oriented g).toFinset = (nodesFinset g).offDiag := by
      apply Finset.Subset.antisymm (oriented_subset_offDiag hw)
      intro p hp
      rw [Finset.mem_offDiag] at hp
      rw [List.mem_toFinset]
      exact mem_oriented.mpr
        (hc p.1 (List.mem_toFinset.mp hp.1) p.2 (List.mem_toFinset.mp hp.2.1) hp.2.2)
    have h1 : (oriented g).toFinset.card = 2 * edge_count g := by
      rw [List.toFinset_card_of_nodup (oriented_nodup hw), length_oriented]
    rw [← h1, heq, Finset.offDiag_card, nodesFinset_card hw]

theorem cast_sq_sub {n : Nat} (h : 1 ≤ n) :
    ((n * n - n : Nat) : ℚ) = (n : ℚ) * ((n : ℚ) - 1) := by
  have hle : n ≤ n * n := Nat.le_mul_of_pos_left n (by omega)
  push_cast [Nat.cast_sub hle]
  ring

theorem density_eq_two_mul {g : Graph} (h : 2 ≤ node_count g) :
    density g =
      (2 * edge_count g : ℚ) / ((node_count g : ℚ) * ((node_count g : ℚ) - 1)) := by
  unfold density
  rw [if_neg (by omega)]
  have hn : (2 : ℚ) ≤ (node_count g : ℚ) := by exact_mod_cast h
  have h0 : (node_count g : ℚ) ≠ 0 := by linarith
  have h1 : (node_count g : ℚ) - 1 ≠ 0 := by linarith
  field_simp
  ring

theorem density_nonneg (g : Graph) : 0 ≤ density g := by
  unfold density
  split
  · exact le_refl 0
  · rename_i h
    have hn : (2 : ℚ) ≤ (node_count g : ℚ) := by exact_mod_cast (by omega : 2 ≤ node_count g)
    apply div_nonneg (by positivity)
    have : (0:ℚ) < (node_count g : ℚ) * ((node_count g : ℚ) - 1) := by nlinarith
    linarith

theorem density_le_one {g : Graph} (hw : WF g) : density g ≤ 1 := by
  by_cases h : node_count g < 2
  · unfold density
    rw [if_pos h]
    norm_num
  · push_neg at h
    rw [density_eq_two_mul h]
    have hn : (2 : ℚ) ≤ (node_count g : ℚ) := by exact_mod_cast h
    have hpos : (0:ℚ) < (node_count g : ℚ) * ((node_count g : ℚ) - 1) := by nlinarith
    rw [div_le_one hpos]
    have hle := two_mul_edge_count_le hw
    calc (2 * edge_count g : ℚ) ≤ ((node_count g * node_count g - node_count g : Nat) : ℚ) := by
          exact_mod_cast hle
      _ = (node_count g : ℚ) * ((node_count g : ℚ) - 1) := cast_sq_sub (by omega)

theorem density_eq_one_iff {g : Graph} (hw : WF g) (h : 2 ≤ node_count g) :
    density g = 1 ↔ IsComplete g := by
  rw [density_eq_two_mul h]
  have hn : (2 : ℚ) ≤ (node_count g : ℚ) := by exact_mod_cast h
  have hpos : (0:ℚ) < (node_count g : ℚ) * ((node_count g : ℚ) - 1) := by nlinarith
  rw [div_eq_one_iff_eq (ne_of_gt hpos)]
  rw [← cast_sq_sub (by omega : 1 ≤ node_count g)]
  rw [show (2 * edge_count g : ℚ) = ((2 * edge_count g : Nat) : ℚ) by push_cast; ring]
  rw [Nat.cast_inj]
  exact two_mul_edge_count_eq_iff hw

/-! ## Degree centrality -/

/-- Modelled from the spec: `degree_centrality(u) = degree(u)/(n-1)` for
`n > 1`, and `0` for `n ≤ 1` (§4.3). -/
def degree_centrality (g : Graph) (u : Nat) : ℚ :=
  if node_count g ≤ 1 then 0
  else (degree g u : ℚ) / ((node_count g : ℚ) - 1)

theorem degree_eq_zero_of_not_mem {g : Graph} (hw : WF g) {u : Nat}
    (hu : u ∉ g.nodes) : degree g u = 0 := by
  unfold degree neighbors
  rw [List.filter_eq_nil_iff.mpr, List.length_nil]
  intro v _ hadj
  exact hu (adjb_mem_left hw (by simpa using hadj))

theorem neighbors_subset_erase {g : Graph} (hw : WF g) (u : Nat) :
    neighbors g u ⊆ g.nodes.erase u := by
  intro v hv
  rw [mem_neighbors] at hv
  have hne : v ≠ u := fun h => adjb_ne hw hv.2 h.symm
  exact (List.mem_erase_of_ne hne).mpr hv.1

theorem degree_le_pred {g : Graph} (hw : WF g) (u : Nat) :
    degree g u ≤ node_count g - 1 := by
  by_cases hu : u ∈ g.nodes
  · have hsub := (neighbors_nodup hw u).subperm (neighbors_subset_erase hw u)
    have := hsub.length_le
    rw [List.length_erase] at this
    unfold degree node_count
    simpa [hu] using this
  · rw [degree_eq_zero_of_not_mem hw hu]
    exact Nat.zero_le _

theorem exists_other_node {g : Graph} (hw : WF g) (h : 2 ≤ node_count g)
    (u : Nat) : ∃ v ∈ g.nodes, v ≠ u := by
  unfold node_count at h
  match hnodes : g.nodes, h with
  | x :: y :: rest, _ =>
      have hxy : x ≠ y := by
        have := hw.1
        rw [hnodes] at this
        simp [List.nodup_cons] at this
        exact fun hh => this.1.1 hh
      by_cases hxu : x = u
      · exact ⟨y, by simp, fun hh => hxy (by rw [hxu, hh])⟩
      · exact ⟨x, by simp, hxu⟩

theorem degree_eq_pred_iff {g : Graph} (hw : WF g) (h : 2 ≤ node_count g)
    (u : Nat) :
    degree g u = node_count g - 1 ↔
      ∀ v ∈ g.nodes, v ≠ u → adjb g u v = true := by
  by_cases hu : u ∈ g.nodes
  · constructor
    · intro hdeg v hv hvu
      have hsub := (neighbors_nodup hw u).subperm (neighbors_subset_erase hw u)
      have hperm := hsub.perm_of_length_le (by
        rw [List.length_erase, if_pos hu]
        simp only [degree, node_count] at hdeg ⊢
        omega)
      have : v ∈ neighbors g u := hperm.mem_iff.mpr ((List.mem_erase_of_ne hvu).mpr hv)
      exact (mem_neighbors.mp this).2
    · intro hall
      have hsub2 : g.nodes.erase u ⊆ neighbors g u := by
        intro v hv
        obtain ⟨hvu, hvn⟩ := (List.Nodup.mem_erase_iff hw.1).mp hv
        exact mem_neighbors.mpr ⟨hvn, hall v hvn hvu⟩
      have h1 := ((hw.1.erase u).subperm hsub2).length_le
      have h2 := degree_le_pred hw u
      rw [List.length_erase, if_pos hu] at h1
      simp only [degree, node_count] at h1 h2 ⊢
      omega
  · constructor
    · intro hdeg
      rw [degree_eq_zero_of_not_mem hw hu] at hdeg
      omega
    · intro hall
      obtain ⟨v, hv, hvu⟩ := exists_other_node hw h u
      have := adjb_mem_left hw (hall v hv hvu)
      exact absurd this hu

theorem degree_centrality_nonneg (g : Graph) (u : Nat) :
    0 ≤ degree_centrality g u := by
  unfold degree_centrality
  split
  · exact le_refl 0
  · rename_i hle
    have : (2 : ℚ) ≤ (node_count g : ℚ) := by exact_mod_cast (by omega : 2 ≤ node_count g)
    apply div_nonneg (by positivity)
    linarith

theorem degree_centrality_le_one {g : Graph} (hw : WF g) (u : Nat) :
    degree_centrality g u ≤ 1 := by
  unfold degree_centrality
  split
  · norm_num
  · rename_i hle
    have hn2 : 2 ≤ node_count g := by omega
    have hc : (2 : ℚ) ≤ (node_count g : ℚ) := by exact_mod_cast hn2
    rw [div_le_one (by linarith)]
    have := degree_le_pred hw u
    calc (degree g u : ℚ) ≤ ((node_count g - 1 : Nat) : ℚ) := by exact_mod_cast this
      _ = (node_count g : ℚ) - 1 := by
          push_cast [Nat.cast_sub (by omega : 1 ≤ node_count g)]
          ring

theorem degree_centrality_eq_one_iff {g : Graph} (hw : WF g)
    (h : 2 ≤ node_count g) (u : Nat) :
    degree_centrality g u = 1 ↔ ∀ v ∈ g.nodes, v ≠ u → adjb g u v = true := by
  unfold degree_centrality
  rw [if_neg (by omega)]
  have hc : (2 : ℚ) ≤ (node_count g : ℚ) := by exact_mod_cast h
  rw [div_eq_one_iff_eq (by linarith)]
  rw [show (node_count g : ℚ) - 1 = ((node_count g - 1 : Nat) : ℚ) by
    push_cast [Nat.cast_sub (by omega : 1 ≤ node_count g)]; ring]
  rw [Nat.cast_inj]
  exact degree_eq_pred_iff hw h u

/-! ## Walks and reachability -/

/-- A walk of a given length between two nodes: `WalkLen g u v k` means
there is a chain of `k` adjacency steps from `u` to `v`. -/
inductive WalkLen (g : Graph) : Nat → Nat → Nat → Prop where
  | refl (u : Nat) : WalkLen g u u 0
  | tail {u v w : Nat} {k : Nat} :
      WalkLen g u v k → adjb g v w = true → WalkLen g u w (k + 1)

/-- Reachability: some walk joins the two nodes. -/
def Reachable (g : Graph) (u v : Nat) : Prop :=
  ∃ k, WalkLen g u v k

theorem walkLen_cons {g : Graph} {u v w : Nat} {k : Nat}
    (h : adjb g u v = true) (hw : WalkLen g v w k) : WalkLen g u w (k + 1) := by
  induction hw with
  | refl => exact WalkLen.tail (WalkLen.refl u) h
  | tail hw2 hadj ih => exact WalkLen.tail ih hadj

theorem walkLen_symm {g : Graph} {u v : Nat} {k : Nat}
    (h : WalkLen g u v k) : WalkLen g v u k := by
  induction h with
  | refl => exact WalkLen.refl _
  | tail hw hadj ih =>
      exact walkLen_cons (by rw [adjb_comm]; exact hadj) ih

theorem walkLen_trans {g : Graph} {u v w : Nat} {j k : Nat}
    (h1 : WalkLen g u v j) (h2 : WalkLen g v w k) : WalkLen g u w (j + k) := by
  induction h2 with
  | refl => exact h1
  | tail hw hadj ih => exact WalkLen.tail ih hadj

theorem reachable_refl (g : Graph) (u : Nat) : Reachable g u u :=
  ⟨0, WalkLen.refl u⟩

theorem reachable_symm {g : Graph} {u v : Nat} (h : Reachable g u v) :
    Reachable g v u := by
  obtain ⟨k, hk⟩ := h
  exact ⟨k, walkLen_symm hk⟩

theorem reachable_trans {g : Graph} {u v w : Nat}
    (h1 : Reachable g u v) (h2 : Reachable g v w) : Reachable g u w := by
  obtain ⟨j, hj⟩ := h1
  obtain ⟨k, hk⟩ := h2
  exact ⟨j + k, walkLen_trans hj hk⟩

/-! ## Breadth-first search with distances -/

/-- One BFS frontier expansion: all not-yet-recorded neighbours of the
current frontier, deduplicated, in adjacency iteration order. -/
def bfsNext (g : Graph) (dists : List (Nat × Nat)) (frontier : List Nat) :
    List Nat :=
  ((frontier.flatMap (fun u => neighbors g u)).filter
      (fun v => !(dists.any (fun p => p.1 == v)))).dedup

/-- Modelled from the spec: the BFS core of §4.2 — layer-by-layer frontier
expansion recording, for every node discovered, its discovery distance
from the source.  `fuel` bounds the number of layers. -/
def bfsAux (g : Graph) :
    Nat → List (Nat × Nat) → List Nat → Nat → List (Nat × Nat)
  | 0, dists, _, _ => dists
  | _ + 1, dists, [], _ => dists
  | fuel + 1, dists, f :: fs, d =>
      let newF := bfsNext g dists (f :: fs)
      bfsAux g fuel (dists ++ newF.map (fun v => (v, d + 1))) newF (d + 1)

/-- Modelled from the spec: BFS distance table from a source node (§4.2):
the association list of every node reachable from `s` with its shortest
distance, in BFS discovery order. -/
def bfsDist (g : Graph) (s : Nat) : List (Nat × Nat) :=
  bfsAux g (node_count g + 1) [(s, 0)] [s] 0

theorem bfsAux_nil_frontier (g : Graph) (fuel : Nat) (dists : List (Nat × Nat))
    (d : Nat) : bfsAux g fuel dists [] d = dists := by
  cases fuel <;> rfl

/-- The invariants maintained by the BFS loop. -/
structure BfsState (g : Graph) (s : Nat) (dists : List (Nat × Nat))
    (frontier : List Nat) (d : Nat) : Prop where
  start_mem : (s, 0) ∈ dists
  keys_nodup : (dists.map Prod.fst).Nodup
  keys_sub : ∀ p ∈ dists, p.1 = s ∨ p.1 ∈ g.nodes
  vals_le : ∀ p ∈ dists, p.2 ≤ d
  frontier_sub : ∀ v ∈ frontier, (v, d) ∈ dists
  at_d_frontier : ∀ p ∈ dists, p.2 = d → p.1 ∈ frontier
  sound : ∀ p ∈ dists, WalkLen g s p.1 p.2
  closed_lt : ∀ p ∈ dists, p.2 < d → ∀ w, adjb g p.1 w = true →
      ∃ k, k ≤ p.2 + 1 ∧ (w, k) ∈ dists

/-- What BFS guarantees about its final distance table. -/
def BfsResult (g : Graph) (s : Nat) (D : List (Nat × Nat)) : Prop :=
  (s, 0) ∈ D ∧ (D.map Prod.fst).Nodup ∧
  (∀ p ∈ D, p.1 = s ∨ p.1 ∈ g.nodes) ∧
  (∀ p ∈ D, WalkLen g s p.1 p.2) ∧
  (∀ p ∈ D, ∀ w, adjb g p.1 w = true → ∃ k, k ≤ p.2 + 1 ∧ (w, k) ∈ D)

theorem bfsFinal {g : Graph} {s : Nat} {dists : List (Nat × Nat)} {d : Nat}
    (st : BfsState g s dists [] d) : BfsResult g s dists := by
  refine ⟨st.start_mem, st.keys_nodup, st.keys_sub, st.sound, ?_⟩
  intro p hp w hadj
  rcases Nat.lt_or_ge p.2 d with hlt | hge
  · exact st.closed_lt p hp hlt w hadj
  · have : p.2 = d := Nat.le_antisymm (st.vals_le p hp) hge
    exact absurd (st.at_d_frontier p hp this) (List.not_mem_nil p.1)

theorem mem_bfsNext {g : Graph} {dists : List (Nat × Nat)}
    {frontier : List Nat} {v : Nat} :
    v ∈ bfsNext g dists frontier ↔
      (∃ u ∈ frontier, v ∈ neighbors g u) ∧ ∀ p ∈ dists, p.1 ≠ v := by
  unfold bfsNext
  rw [List.mem_dedup, List.mem_filter, List.mem_flatMap,
    Bool.not_eq_true', List.any_eq_false]
  constructor
  · intro h
    exact ⟨h.1, fun p hp => by simpa using h.2 p hp⟩
  · intro h
    exact ⟨h.1, fun p hp => by simpa using h.2 p hp⟩

theorem map_fst_map_pair (d : Nat) (l : List Nat) :
    (l.map (fun v => (v, d))).map Prod.fst = l := by
  induction l with
  | nil => rfl
  | cons a l ih => simp only [List.map_cons, ih]

theorem bfsStep_state {g : Graph} (hw : WF g) {s : Nat}
    {dists : List (Nat × Nat)} {frontier : List Nat} {d : Nat}
    (st : BfsState g s dists frontier d) :
    BfsState g s (dists ++ (bfsNext g dists frontier).map (fun v => (v, d + 1)))
      (bfsNext g dists frontier) (d + 1) := by
  set newF := bfsNext g dists frontier with hnewF
  have hnewF_nodup : newF.Nodup := List.nodup_dedup _
  have hnewF_not_key : ∀ v ∈ newF, ∀ p ∈ dists, p.1 ≠ v := by
    intro v hv
    exact (mem_bfsNext.mp hv).2
  have hnewF_adj : ∀ v ∈ newF, ∃ u ∈ frontier, v ∈ neighbors g u := by
    intro v hv
    exact (mem_bfsNext.mp hv).1
  constructor
  · exact List.mem_append_left _ st.start_mem
  · have hcomp : (newF.map (fun v => (v, d + 1))).map Prod.fst = newF :=
      map_fst_map_pair (d + 1) newF
    rw [List.map_append]
    apply List.Nodup.append st.keys_nodup
    · rw [hcomp]
      exact hnewF_nodup
    · intro a ha hb
      rw [hcomp] at hb
      obtain ⟨p, hp, hpa⟩ := List.mem_map.mp ha
      exact hnewF_not_key a hb p hp hpa
  · intro p hp
    rcases List.mem_append.mp hp with h | h
    · exact st.keys_sub p h
    · obtain ⟨v, hv, hpv⟩ := List.mem_map.mp h
      obtain ⟨u, _, hvn⟩ := hnewF_adj v hv
      right
      rw [← hpv]
      exact (mem_neighbors.mp hvn).1
  · intro p hp
    rcases List.mem_append.mp hp with h | h
    · exact Nat.le_succ_of_le (st.vals_le p h)
    · obtain ⟨v, hv, hpv⟩ := List.mem_map.mp h
      rw [← hpv]
  · intro v hv
    exact List.mem_append_right _ (List.mem_map.mpr ⟨v, hv, rfl⟩)
  · intro p hp hpd
    rcases List.mem_append.mp hp with h | h
    · exact absurd hpd (Nat.ne_of_lt (Nat.lt_succ_of_le (st.vals_le p h)))
    · obtain ⟨v, hv, hpv⟩ := List.mem_map.mp h
      rw [← hpv]
      exact hv
  · intro p hp
    rcases List.mem_append.mp hp with h | h
    · exact st.sound p h
    · obtain ⟨v, hv, hpv⟩ := List.mem_map.mp h
      obtain ⟨u, hu, hvn⟩ := hnewF_adj v hv
      have hwalk := st.sound (u, d) (st.frontier_sub u hu)
      rw [← hpv]
      exact WalkLen.tail hwalk (mem_neighbors.mp hvn).2
  · intro p hp hplt w hadj
    rcases List.mem_append.mp hp with h | h
    · rcases Nat.lt_or_ge p.2 d with hlt | hge
      · obtain ⟨k, hk, hmem⟩ := st.closed_lt p h hlt w hadj
        exact ⟨k, hk, List.mem_append_left _ hmem⟩
      · have hpd : p.2 = d := Nat.le_antisymm (st.vals_le p h) hge
        have hpf : p.1 ∈ frontier := st.at_d_frontier p h hpd
        by_cases hkey : ∃ q ∈ dists, q.1 = w
        · obtain ⟨q, hq, hqw⟩ := hkey
          refine ⟨q.2, ?_, ?_⟩
          · have := st.vals_le q hq
            omega
          · rw [← hqw]
            exact List.mem_append_left _ hq
        · push_neg at hkey
          have hwn : w ∈ neighbors g p.1 :=
            mem_neighbors.mpr ⟨adjb_mem_right hw hadj, hadj⟩
          have hwF : w ∈ newF :=
            mem_bfsNext.mpr ⟨⟨p.1, hpf, hwn⟩, fun q hq => hkey q hq⟩
          exact ⟨d + 1, by omega,
            List.mem_append_right _ (List.mem_map.mpr ⟨w, hwF, rfl⟩)⟩
    · obtain ⟨v, hv, hpv⟩ := List.mem_map.mp h
      rw [← hpv] at hplt
      exact absurd hplt (by omega)

theorem bfs_keys_length_le {g : Graph} {s : Nat} {dists : List (Nat × Nat)}
    (hnd : (dists.map Prod.fst).Nodup)
    (hsub : ∀ p ∈ dists, p.1 = s ∨ p.1 ∈ g.nodes) :
    dists.length ≤ node_count g + 1 := by
  have hsub2 : dists.map Prod.fst ⊆ s :: g.nodes := by
    intro a ha
    obtain ⟨p, hp, hpa⟩ := List.mem_map.mp ha
    rcases hsub p hp with h | h
    · exact hpa ▸ h ▸ List.mem_cons_self s g.nodes
    · exact List.mem_cons_of_mem s (hpa ▸ h)
  have := (hnd.subperm hsub2).length_le
  rw [List.length_map] at this
  simpa [node_count] using this

theorem bfsAux_spec {g : Graph} (hw : WF g) (s : Nat) :
    ∀ (fuel : Nat) (dists : List (Nat × Nat)) (frontier : List Nat) (d : Nat),
      BfsState g s dists frontier d →
      node_count g + 2 ≤ fuel + dists.length →
      BfsResult g s (bfsAux g fuel dists frontier d) := by
  intro fuel
  induction fuel with
  | zero =>
      intro dists frontier d st hfuel
      have := bfs_keys_length_le st.keys_nodup st.keys_sub
      omega
  | succ f ih =>
      intro dists frontier d st hfuel
      match frontier with
      | [] => exact bfsFinal st
      | x :: xs =>
          rw [show bfsAux g (f + 1) dists (x :: xs) d =
            bfsAux g f
              (dists ++ (bfsNext g dists (x :: xs)).map (fun v => (v, d + 1)))
              (bfsNext g dists (x :: xs)) (d + 1) from rfl]
          have st2 := bfsStep_state hw st
          match hN : bfsNext g dists (x :: xs) with
          | [] =>
              rw [hN] at st2
              rw [bfsAux_nil_frontier]
              simpa using bfsFinal (by simpa using st2)
          | y :: ys =>
              apply ih _ _ _ (hN ▸ st2)
              simp only [List.length_append, List.length_map, List.length_cons]
              omega

theorem bfsDist_result {g : Graph} (hw : WF g) (s : Nat) :
    BfsResult g s (bfsDist g s) := by
  apply bfsAux_spec hw s
  · constructor
    · exact List.mem_singleton.mpr rfl
    · simp
    · intro p hp
      rw [List.mem_singleton] at hp
      rw [hp]
      exact Or.inl rfl
    · intro p hp
      rw [List.mem_singleton] at hp
      rw [hp]
    · intro v hv
      rw [List.mem_singleton] at hv
      rw [hv]
      exact List.mem_singleton.mpr rfl
    · intro p hp _
      rw [List.mem_singleton] at hp
      rw [hp]
      exact List.mem_singleton.mpr rfl
    · intro p hp
      rw [List.mem_singleton] at hp
      rw [hp]
      exact WalkLen.refl s
    · intro p hp hlt
      exact absurd hlt (by
        rw [List.mem_singleton] at hp
        rw [hp]
        omega)
  · simp [List.length_singleton]

theorem bfs_complete {g : Graph} {s : Nat} {D : List (Nat × Nat)}
    (hr : BfsResult g s D) :
    ∀ v k, WalkLen g s v k → ∃ j, j ≤ k ∧ (v, j) ∈ D := by
  intro v k hwalk
  induction hwalk with
  | refl => exact ⟨0, Nat.le_refl 0, hr.1⟩
  | tail hw2 hadj ih =>
      obtain ⟨j, hj, hmem⟩ := ih
      obtain ⟨j2, hj2, hmem2⟩ := hr.2.2.2.2 _ hmem _ hadj
      exact ⟨j2, by simpa using Nat.le_trans hj2 (by omega), hmem2⟩

theorem keys_nodup_eq {D : List (Nat × Nat)} (hnd : (D.map Prod.fst).Nodup)
    {v k j : Nat} (h1 : (v, k) ∈ D) (h2 : (v, j) ∈ D) : k = j := by
  induction D with
  | nil => exact absurd h1 (List.not_mem_nil _)
  | cons p ps ih =>
      rw [List.map_cons, List.nodup_cons] at hnd
      rcases List.mem_cons.mp h1 with e1 | m1 <;>
        rcases List.mem_cons.mp h2 with e2 | m2
      · exact congrArg Prod.snd (e1.trans e2.symm)
      · exact absurd (List.mem_map.mpr ⟨(v, j), m2, by rw [← e1]⟩) hnd.1
      · exact absurd (List.mem_map.mpr ⟨(v, k), m1, by rw [← e2]⟩) hnd.1
      · exact ih hnd.2 m1 m2

theorem mem_bfsDist_iff_reachable {g : Graph} (hw : WF g) (s v : Nat) :
    (∃ k, (v, k) ∈ bfsDist g s) ↔ Reachable g s v := by
  have hr := bfsDist_result hw s
  constructor
  · rintro ⟨k, hk⟩
    exact ⟨k, hr.2.2.2.1 (v, k) hk⟩
  · rintro ⟨k, hk⟩
    obtain ⟨j, _, hmem⟩ := bfs_complete hr v k hk
    exact ⟨j, hmem⟩

theorem bfsDist_min {g : Graph} (hw : WF g) {s v k : Nat}
    (h : (v, k) ∈ bfsDist g s) : ∀ j, WalkLen g s v j → k ≤ j := by
  intro j hj
  have hr := bfsDist_result hw s
  obtain ⟨j2, hj2, hmem⟩ := bfs_complete hr v j hj
  have := keys_nodup_eq hr.2.1 h hmem
  omega

/-! ## Association-list lookup -/

theorem lookup_eq_some_of_mem {D : List (Nat × Nat)}
    (hnd : (D.map Prod.fst).Nodup) {v k : Nat} (h : (v, k) ∈ D) :
    D.lookup v = some k := by
  induction D with
  | nil => exact absurd h (List.not_mem_nil _)
  | cons p ps ih =>
      rw [List.map_cons, List.nodup_cons] at hnd
      rcases List.mem_cons.mp h with e | m
      · rw [← e]
        simp [List.lookup]
      · have hne : v ≠ p.1 := by
          intro hh
          exact hnd.1 (List.mem_map.mpr ⟨(v, k), m, by rw [hh]⟩)
        have hb : (v == p.1) = false := beq_eq_false_iff_ne.mpr hne
        rw [List.lookup, hb]
        exact ih hnd.2 m

theorem mem_of_lookup_eq_some {D : List (Nat × Nat)} {v k : Nat}
    (h : D.lookup v = some k) : (v, k) ∈ D := by
  induction D with
  | nil => exact absurd h (by simp [List.lookup])
  | cons p ps ih =>
      rw [List.lookup] at h
      cases hb : (v == p.1) with
      | true =>
          rw [hb] at h
          have hv : v = p.1 := beq_iff_eq.mp hb
          have hk : p.2 = k := by
            simpa using h
          have : (v, k) = p := by
            rw [hv, ← hk]
          rw [this]
          exact List.mem_cons_self p ps
      | false =>
          rw [hb] at h
          exact List.mem_cons_of_mem p (ih h)

theorem lookup_isSome_iff {D : List (Nat × Nat)}
    (hnd : (D.map Prod.fst).Nodup) {v : Nat} :
    (∃ k, D.lookup v = some k) ↔ ∃ k, (v, k) ∈ D := by
  constructor
  · rintro ⟨k, hk⟩
    exact ⟨k, mem_of_lookup_eq_some hk⟩
  · rintro ⟨k, hk⟩
    exact ⟨k, lookup_eq_some_of_mem hnd hk⟩

/-! ## Shortest paths -/

/-- A list of nodes whose consecutive members are adjacent. -/
def IsChain (g : Graph) : List Nat → Prop
  | [] => True
  | [_] => True
  | a :: b :: rest => adjb g a b = true ∧ IsChain g (b :: rest)

/-- A walk presented as an explicit node list from `u` to `v`. -/
def IsWalkList (g : Graph) (u v : Nat) (p : List Nat) : Prop :=
  IsChain g p ∧ p.head? = some u ∧ p.getLast? = some v

/-- A path in the sense of the spec (§3): a walk whose nodes are distinct. -/
def IsPathList (g : Graph) (u v : Nat) (p : List Nat) : Prop :=
  IsWalkList g u v p ∧ p.Nodup

theorem walkList_to_walkLen {g : Graph} {u v : Nat} {p : List Nat}
    (h : IsWalkList g u v p) : WalkLen g u v (p.length - 1) := by
  obtain ⟨hchain, hhead, hlast⟩ := h
  induction p generalizing u with
  | nil => exact absurd hhead (by simp)
  | cons a rest ih =>
      have hau : a = u := by simpa using hhead
      subst hau
      match rest, hchain, hlast with
      | [], _, hlast =>
          have : a = v := by simpa using hlast
          subst this
          exact WalkLen.refl a
      | b :: rest2, hchain, hlast =>
          have hblast : (b :: rest2).getLast? = some v := by
            rw [List.getLast?_cons_cons] at hlast
            exact hlast
          have hwalk := ih (u := b) hchain.2 rfl hblast
          have := walkLen_cons hchain.1 hwalk
          simpa using this

theorem chain_append_last {g : Graph} {p : List Nat} {w v : Nat}
    (hchain : IsChain g p) (hlast : p.getLast? = some w)
    (hadj : adjb g w v = true) : IsChain g (p ++ [v]) := by
  induction p generalizing w with
  | nil => exact absurd hlast (by simp)
  | cons a rest ih =>
      match rest, hchain, hlast with
      | [], _, hlast =>
          have : a = w := by simpa using hlast
          subst this
          exact ⟨hadj, trivial⟩
      | b :: rest2, hchain, hlast =>
          rw [List.getLast?_cons_cons] at hlast
          exact ⟨hchain.1, ih hchain.2 hlast hadj⟩

/-- Backwards extraction of a shortest path from the BFS distance table:
from a node at distance `k + 1`, step to the first recorded neighbour at
distance `k` (the first shortest path in BFS frontier-expansion order). -/
def buildPath (g : Graph) (D : List (Nat × Nat)) : Nat → Nat → List Nat
  | 0, v => [v]
  | k + 1, v =>
      match (neighbors g v).find? (fun w => D.lookup w == some k) with
      | some w => buildPath g D k w ++ [v]
      | none => []

/-- Modelled from the spec: `shortest_path(u, v)` — BFS from `u`; fails
with `NoPathError` when `v` is unreachable from `u`, otherwise returns
the first shortest path discovered in BFS frontier-expansion order
(§4.2). -/
def shortest_path (g : Graph) (u v : Nat) : Except GraphError (List Nat) :=
  match (bfsDist g u).lookup v with
  | none => .error .noPath
  | some k => .ok (buildPath g (bfsDist g u) k v)

theorem walkLen_zero_eq {g : Graph} {s v : Nat} (h : WalkLen g s v 0) :
    s = v := by
  cases h
  rfl

theorem buildPath_spec {g : Graph} (hw : WF g) (s : Nat) :
    ∀ k v, (v, k) ∈ bfsDist g s →
      (buildPath g (bfsDist g s) k v).length = k + 1 ∧
      IsWalkList g s v (buildPath g (bfsDist g s) k v) ∧
      (∀ i, ∀ hi : i < (buildPath g (bfsDist g s) k v).length,
        ((buildPath g (bfsDist g s) k v).get ⟨i, hi⟩, i) ∈ bfsDist g s) := by
  have hr := bfsDist_result hw s
  intro k
  induction k with
  | zero =>
      intro v hv
      have hsv : s = v := walkLen_zero_eq (hr.2.2.2.1 (v, 0) hv)
      subst hsv
      refine ⟨rfl, ⟨trivial, rfl, rfl⟩, ?_⟩
      intro i hi
      have hi0 : i = 0 := by
        simp only [buildPath, List.length_singleton] at hi
        omega
      subst hi0
      simpa [buildPath] using hv
  | succ k ih =>
      intro v hv
      have hwalk : WalkLen g s v (k + 1) := hr.2.2.2.1 (v, k + 1) hv
      have hstep : ∃ w, w ∈ neighbors g v ∧ (bfsDist g s).lookup w = some k := by
        cases hwalk with
        | tail hw2 hadj =>
            rename_i w2
            obtain ⟨j, hj, hmem⟩ := bfs_complete hr w2 k hw2
            obtain ⟨k2, hk2, hmem2⟩ := hr.2.2.2.2 (w2, j) hmem v hadj
            have hk2v : k2 = k + 1 := keys_nodup_eq hr.2.1 hmem2 hv
            have hjk : j = k := by omega
            subst hjk
            refine ⟨w2, mem_neighbors.mpr
              ⟨adjb_mem_left hw hadj, by rw [adjb_comm]; exact hadj⟩, ?_⟩
            exact lookup_eq_some_of_mem hr.2.1 hmem
      have hfind : ∃ w, (neighbors g v).find?
          (fun w => (bfsDist g s).lookup w == some k) = some w := by
        obtain ⟨w, hwn, hwl⟩ := hstep
        have : ((neighbors g v).find?
            (fun w => (bfsDist g s).lookup w == some k)).isSome = true :=
          List.find?_isSome.mpr ⟨w, hwn, by rw [hwl]; simp⟩
        exact Option.isSome_iff_exists.mp this
      obtain ⟨w, hfw⟩ := hfind
      have hwn : w ∈ neighbors g v := List.mem_of_find?_eq_some hfw
      have hwl : (bfsDist g s).lookup w = some k := by
        have := List.find?_some hfw
        simpa using this
      have hwmem : (w, k) ∈ bfsDist g s := mem_of_lookup_eq_some hwl
      obtain ⟨ihl, ⟨ihchain, ihhead, ihlast⟩, ihget⟩ := ih w hwmem
      have hbuild : buildPath g (bfsDist g s) (k + 1) v =
          buildPath g (bfsDist g s) k w ++ [v] := by
        rw [buildPath, hfw]
      rw [hbuild]
      have hadj2 : adjb g w v = true := by
        rw [adjb_comm]
        exact (mem_neighbors.mp hwn).2
      refine ⟨by rw [List.length_append, ihl]; rfl, ⟨?_, ?_, ?_⟩, ?_⟩
      · exact chain_append_last ihchain ihlast hadj2
      · rw [List.head?_append, ihhead]
        rfl
      · exact List.getLast?_concat _
      · intro i hi
        have hi2 : i < k + 2 := by
          have hcopy := hi
          rw [List.length_append, ihl] at hcopy
          simpa using hcopy
        by_cases hik : i < k + 1
        · have hil : i < (buildPath g (bfsDist g s) k w).length := by omega
          rw [List.get_append_left _ _ hil]
          exact ihget i hil
        · have hik2 : i = k + 1 := by omega
          clear hi2
          subst hik2
          have hval : (buildPath g (bfsDist g s) k w ++ [v]).get ⟨k + 1, hi⟩ = v := by
            rw [List.get_eq_getElem]
            exact List.getElem_concat_length _ v (k + 1) ihl.symm _
          rw [hval]
          exact hv

theorem buildPath_nodup {g : Graph} (hw : WF g) (s : Nat) {k v : Nat}
    (hv : (v, k) ∈ bfsDist g s) : (buildPath g (bfsDist g s) k v).Nodup := by
  obtain ⟨hlen, _, hget⟩ := buildPath_spec hw s k v hv
  have hr := bfsDist_result hw s
  rw [List.nodup_iff_injective_get]
  intro i j hij
  have h1 := hget i.1 i.2
  have h2 := hget j.1 j.2
  rw [show (buildPath g (bfsDist g s) k v).get i =
      (buildPath g (bfsDist g s) k v).get ⟨i.1, i.2⟩ from rfl] at hij
  rw [show (buildPath g (bfsDist g s) k v).get j =
      (buildPath g (bfsDist g s) k v).get ⟨j.1, j.2⟩ from rfl] at hij
  rw [hij] at h1
  have := keys_nodup_eq hr.2.1 h1 h2
  exact Fin.ext this

theorem shortest_path_error_iff {g : Graph} (hw : WF g) (u v : Nat) :
    shortest_path g u v = .error .noPath ↔ ¬ Reachable g u v := by
  have hr := bfsDist_result hw u
  unfold shortest_path
  constructor
  · intro h hreach
    obtain ⟨k, hk⟩ := (mem_bfsDist_iff_reachable hw u v).mpr hreach
    rw [lookup_eq_some_of_mem hr.2.1 hk] at h
    exact absurd h (by simp)
  · intro hreach
    match hl : (bfsDist g u).lookup v with
    | none => rfl
    | some k =>
        exact absurd ((mem_bfsDist_iff_reachable hw u v).mp
          ⟨k, mem_of_lookup_eq_some hl⟩) hreach

theorem shortest_path_ok {g : Graph} (hw : WF g) {u v : Nat}
    (hreach : Reachable g u v) :
    ∃ p, shortest_path g u v = .ok p ∧ IsPathList g u v p ∧
      ∀ q, IsWalkList g u v q → p.length ≤ q.length := by
  have hr := bfsDist_result hw u
  obtain ⟨k, hk⟩ := (mem_bfsDist_iff_reachable hw u v).mpr hreach
  have hl : (bfsDist g u).lookup v = some k := lookup_eq_some_of_mem hr.2.1 hk
  refine ⟨buildPath g (bfsDist g u) k v, ?_, ?_, ?_⟩
  · unfold shortest_path
    rw [hl]
  · obtain ⟨hlen, hwlk, _⟩ := buildPath_spec hw u k v hk
    exact ⟨hwlk, buildPath_nodup hw u hk⟩
  · intro q hq
    obtain ⟨hlen, _, _⟩ := buildPath_spec hw u k v hk
    have hqw := walkList_to_walkLen hq
    have hmin := bfsDist_min hw hk _ hqw
    have hqne : q ≠ [] := by
      intro hqe
      rw [hqe] at hq
      exact absurd hq.2.1 (by simp)
    have hqlen : 1 ≤ q.length := by
      cases q with
      | nil => exact absurd rfl hqne
      | cons a l => simp
    omega

/-! ## Connected components -/

theorem mem_keys_iff {D : List (Nat × Nat)} {x : Nat} :
    x ∈ D.map Prod.fst ↔ ∃ k, (x, k) ∈ D := by
  rw [List.mem_map]
  constructor
  · rintro ⟨p, hp, hpx⟩
    exact ⟨p.2, by rw [← hpx]; exact hp⟩
  · rintro ⟨k, hk⟩
    exact ⟨(x, k), hk, rfl⟩

theorem mem_reachSet {g : Graph} (hw : WF g) (s x : Nat) :
    x ∈ (bfsDist g s).map Prod.fst ↔ Reachable g s x := by
  rw [mem_keys_iff]
  exact mem_bfsDist_iff_reachable hw s x

/-- Modelled from the spec: `connected_components()` (§4.2) — traversal
from each not-yet-visited node in insertion order, collecting the BFS
component node-sets in order of discovery. -/
def compAux (g : Graph) : List Nat → List Nat → List (List Nat)
  | [], _ => []
  | v :: rest, visited =>
      if v ∈ visited then compAux g rest visited
      else
        ((bfsDist g v).map Prod.fst) ::
          compAux g rest (visited ++ (bfsDist g v).map Prod.fst)

/-- Modelled from the spec: the ordered sequence of component node-sets. -/
def connected_components (g : Graph) : List (List Nat) :=
  compAux g g.nodes []

theorem compAux_spec {g : Graph} (hw : WF g) :
    ∀ (todo visited : List Nat),
      todo ⊆ g.nodes →
      (∀ x ∈ visited, ∀ y, Reachable g x y → y ∈ visited) →
      (∀ C ∈ compAux g todo visited,
          (∃ r ∈ g.nodes, ∀ x, x ∈ C ↔ Reachable g r x) ∧ C.Nodup ∧
          (∀ x ∈ C, x ∉ visited) ∧ (∀ x ∈ C, x ∈ g.nodes)) ∧
      (∀ x ∈ todo, x ∉ visited → ∃ C ∈ compAux g todo visited, x ∈ C) ∧
      List.Pairwise (fun C1 C2 => ∀ x ∈ C1, ∀ y ∈ C2, ¬ Reachable g x y)
        (compAux g todo visited) := by
  intro todo
  induction todo with
  | nil =>
      intro visited _ _
      refine ⟨?_, ?_, ?_⟩
      · intro C hC
        exact absurd hC (List.not_mem_nil C)
      · intro x hx
        exact absurd hx (List.not_mem_nil x)
      · exact List.Pairwise.nil
  | cons v rest ih =>
      intro visited hsub hclosed
      have hvrest : rest ⊆ g.nodes := fun x hx => hsub (List.mem_cons_of_mem v hx)
      have hvnode : v ∈ g.nodes := hsub (List.mem_cons_self v rest)
      by_cases hv : v ∈ visited
      · rw [show compAux g (v :: rest) visited = compAux g rest visited by
          rw [compAux, if_pos hv]]
        obtain ⟨h1, h2, h3⟩ := ih visited hvrest hclosed
        refine ⟨h1, ?_, h3⟩
        intro x hx hxv
        rcases List.mem_cons.mp hx with e | m
        · exact absurd (e ▸ hv) hxv
        · exact h2 x m hxv
      · have hcomp_mem : ∀ x, x ∈ (bfsDist g v).map Prod.fst ↔ Reachable g v x :=
          fun x => mem_reachSet hw v x
        have hclosed2 : ∀ x ∈ visited ++ (bfsDist g v).map Prod.fst,
            ∀ y, Reachable g x y → y ∈ visited ++ (bfsDist g v).map Prod.fst := by
          intro x hx y hxy
          rcases List.mem_append.mp hx with h | h
          · exact List.mem_append_left _ (hclosed x h y hxy)
          · exact List.mem_append_right _
              ((hcomp_mem y).mpr (reachable_trans ((hcomp_mem x).mp h) hxy))
        have hdisj : ∀ x ∈ (bfsDist g v).map Prod.fst, x ∉ visited := by
          intro x hx hxv
          have hvx : Reachable g v x := (hcomp_mem x).mp hx
          have : v ∈ visited := hclosed x hxv v (reachable_symm hvx)
          exact hv this
        obtain ⟨h1, h2, h3⟩ := ih (visited ++ (bfsDist g v).map Prod.fst)
          hvrest hclosed2
        rw [show compAux g (v :: rest) visited =
            ((bfsDist g v).map Prod.fst) ::
              compAux g rest (visited ++ (bfsDist g v).map Prod.fst) by
          rw [compAux, if_neg hv]]
        refine ⟨?_, ?_, ?_⟩
        · intro C hC
          rcases List.mem_cons.mp hC with e | m
          · subst e
            refine ⟨⟨v, hvnode, hcomp_mem⟩, (bfsDist_result hw v).2.1, hdisj, ?_⟩
            intro x hx
            obtain ⟨k, hk⟩ := mem_keys_iff.mp hx
            rcases (bfsDist_result hw v).2.2.1 (x, k) hk with h | h
            · exact (show x = v from h) ▸ hvnode
            · exact h
          · obtain ⟨ha, hb, hc, hd⟩ := h1 C m
            exact ⟨ha, hb, fun x hx hxv =>
              hc x hx (List.mem_append_left _ hxv), hd⟩
        · intro x hx hxv
          rcases List.mem_cons.mp hx with e | m
          · subst e
            exact ⟨(bfsDist g x).map Prod.fst, List.mem_cons_self _ _,
              (hcomp_mem x).mpr (reachable_refl g x)⟩
          · by_cases hx2 : x ∈ (bfsDist g v).map Prod.fst
            · exact ⟨(bfsDist g v).map Prod.fst, List.mem_cons_self _ _, hx2⟩
            · obtain ⟨C, hC, hxC⟩ := h2 x m (by
                intro hmem
                rcases List.mem_append.mp hmem with h | h
                · exact hxv h
                · exact hx2 h)
              exact ⟨C, List.mem_cons_of_mem _ hC, hxC⟩
        · refine List.Pairwise.cons ?_ h3
          intro C hC x hx y hy hxy
          obtain ⟨_, _, hc, _⟩ := h1 C hC
          have hvy : Reachable g v y := reachable_trans ((hcomp_mem x).mp hx) hxy
          exact hc y hy (List.mem_append_right _ ((hcomp_mem y).mpr hvy))

theorem connected_components_spec {g : Graph} (hw : WF g) :
    (∀ C ∈ connected_components g,
        (∃ r ∈ g.nodes, ∀ x, x ∈ C ↔ Reachable g r x) ∧ C.Nodup ∧
        (∀ x ∈ C, x ∈ g.nodes)) ∧
    (∀ x ∈ g.nodes, ∃ C ∈ connected_components g, x ∈ C) ∧
    List.Pairwise (fun C1 C2 => ∀ x ∈ C1, ∀ y ∈ C2, ¬ Reachable g x y)
      (connected_components g) := by
  obtain ⟨h1, h2, h3⟩ := compAux_spec hw g.nodes []
    (fun x hx => hx) (fun x hx => absurd hx (List.not_mem_nil x))
  refine ⟨?_, ?_, h3⟩
  · intro C hC
    obtain ⟨ha, hb, _, hd⟩ := h1 C hC
    exact ⟨ha, hb, hd⟩
  · intro x hx
    exact h2 x hx (List.not_mem_nil x)

/-- More than one component exists exactly when some pair of nodes is not
mutually reachable. -/
def AllConnected (g : Graph) : Prop :=
  ∀ u ∈ g.nodes, ∀ v ∈ g.nodes, Reachable g u v

theorem comps_length_le_one_iff {g : Graph} (hw : WF g) :
    (connected_components g).length ≤ 1 ↔ AllConnected g := by
  obtain ⟨h1, h2, h3⟩ := connected_components_spec hw
  constructor
  · intro hlen u hu v hv
    obtain ⟨C1, hC1, huC1⟩ := h2 u hu
    obtain ⟨C2, hC2, hvC2⟩ := h2 v hv
    have : C1 = C2 := by
      match hcc : connected_components g, hlen with
      | [], _ =>
          rw [hcc] at hC1
          exact absurd hC1 (List.not_mem_nil C1)
      | [C], _ =>
          rw [hcc] at hC1 hC2
          have e1 : C1 = C := by simpa using hC1
          have e2 : C2 = C := by simpa using hC2
          rw [e1, e2]
    subst this
    obtain ⟨⟨r, _, hr⟩, _, _⟩ := h1 C1 hC1
    exact reachable_trans (reachable_symm ((hr u).mp huC1)) ((hr v).mp hvC2)
  · intro hall
    by_contra hlen
    push_neg at hlen
    match hcc : connected_components g, hlen with
    | C1 :: C2 :: rest, _ =>
        have hC1 : C1 ∈ connected_components g := by rw [hcc]; simp
        have hC2 : C2 ∈ connected_components g := by rw [hcc]; simp
        obtain ⟨⟨r1, hr1n, hr1⟩, _, hsub1⟩ := h1 C1 hC1
        obtain ⟨⟨r2, hr2n, hr2⟩, _, hsub2⟩ := h1 C2 hC2
        have hr1C : r1 ∈ C1 := (hr1 r1).mpr (reachable_refl g r1)
        have hr2C : r2 ∈ C2 := (hr2 r2).mpr (reachable_refl g r2)
        rw [hcc] at h3
        have hnr := (List.pairwise_cons.mp h3).1 C2 (by simp) r1 hr1C r2 hr2C
        exact hnr (hall r1 hr1n r2 hr2n)
    | [], h => exact absurd h (by simp)
    | [C], h => exact absurd h (by simp)

/-! ## Average shortest path length -/

/-- The BFS distance between two nodes, defaulting to `0` when
unreachable (only used on connected graphs). -/
def sdist (g : Graph) (u v : Nat) : Nat :=
  ((bfsDist g u).lookup v).getD 0

/-- The precise characterisation of a shortest-path distance. -/
def DistSpec (g : Graph) (u v k : Nat) : Prop :=
  WalkLen g u v k ∧ ∀ l, WalkLen g u v l → k ≤ l

theorem sdist_spec {g : Graph} (hw : WF g) {u v : Nat}
    (h : Reachable g u v) : DistSpec g u v (sdist g u v) := by
  have hr := bfsDist_result hw u
  obtain ⟨k, hk⟩ := (mem_bfsDist_iff_reachable hw u v).mpr h
  have hl : (bfsDist g u).lookup v = some k := lookup_eq_some_of_mem hr.2.1 hk
  unfold sdist
  rw [hl]
  exact ⟨hr.2.2.2.1 (v, k) hk, bfsDist_min hw hk⟩

/-- The distances `d(i,j)` over all ordered pairs of distinct nodes, in
node order. -/
def pairDists (g : Graph) : List Nat :=
  g.nodes.flatMap (fun i =>
    (g.nodes.filter (fun j => j != i)).map (fun j => sdist g i j))

/-- Modelled from the spec: `average_shortest_path_length()` (§4.2) —
fails with `DisconnectedGraphError` when the graph has more than one
component, otherwise averages `d(i,j)` over all ordered pairs of
distinct nodes. -/
def average_shortest_path_length (g : Graph) : Except GraphError ℚ :=
  if 1 < (connected_components g).length then .error .disconnectedGraph
  else
    .ok (((pairDists g).sum : ℚ) /
      ((node_count g : ℚ) * ((node_count g : ℚ) - 1)))

theorem pairDists_length {g : Graph} (hw : WF g) :
    (pairDists g).length = node_count g * (node_count g - 1) := by
  unfold pairDists
  rw [List.length_flatMap]
  have hlen : ∀ i ∈ g.nodes,
      (List.length ∘ fun i =>
        (g.nodes.filter (fun j => j != i)).map (fun j => sdist g i j)) i =
      node_count g - 1 := by
    intro i hi
    simp only [Function.comp_apply, List.length_map]
    rw [← List.Nodup.erase_eq_filter hw.1 i, List.length_erase, if_pos hi]
    rfl
  rw [List.map_congr_left hlen]
  simp [List.map_const, List.sum_replicate, smul_eq_mul, node_count, Nat.mul_comm]

theorem avg_spl_error {g : Graph} (hw : WF g) (hdisc : ¬ AllConnected g) :
    average_shortest_path_length g = .error .disconnectedGraph := by
  unfold average_shortest_path_length
  rw [if_pos]
  by_contra hlen
  push_neg at hlen
  exact hdisc ((comps_length_le_one_iff hw).mp hlen)

theorem avg_spl_ok {g : Graph} (hw : WF g) (hconn : AllConnected g) :
    average_shortest_path_length g =
      .ok (((pairDists g).sum : ℚ) /
        ((node_count g : ℚ) * ((node_count g : ℚ) - 1))) := by
  unfold average_shortest_path_length
  rw [if_neg]
  push_neg
  exact (comps_length_le_one_iff hw).mpr hconn

/-! ## Graph construction: add_edge and bulk load -/

theorem add_edge_self_loop (g : Graph) (u : Nat) :
    add_edge g u u = .error .invalidEdge := by
  unfold add_edge
  rw [if_pos rfl]

theorem add_edge_ok_of_ne {g : Graph} {u v : Nat} (h : u ≠ v) :
    ∃ g2, add_edge g u v = .ok g2 := by
  unfold add_edge
  rw [if_neg h]
  by_cases hadj : adjb g u v <;> simp [hadj]

theorem add_edge_error {g : Graph} {u v : Nat} {err : GraphError}
    (h : add_edge g u v = .error err) : u = v ∧ err = .invalidEdge := by
  by_cases huv : u = v
  · rw [huv, add_edge_self_loop] at h
    exact ⟨huv, (Except.error.injEq _ _).mp h |>.symm⟩
  · obtain ⟨g2, hg2⟩ := add_edge_ok_of_ne (g := g) huv
    rw [hg2] at h
    exact absurd h (by simp)

theorem add_edge_nodes {g g2 : Graph} {u v : Nat}
    (h : add_edge g u v = .ok g2) :
    ∀ x, x ∈ g2.nodes ↔ x ∈ g.nodes ∨ x = u ∨ x = v := by
  intro x
  unfold add_edge at h
  by_cases huv : u = v
  · rw [if_pos huv] at h
    exact absurd h (by simp)
  · rw [if_neg huv] at h
    have hnodes : g2.nodes =
        (if v ∈ (if u ∈ g.nodes then g.nodes else g.nodes ++ [u])
          then (if u ∈ g.nodes then g.nodes else g.nodes ++ [u])
          else (if u ∈ g.nodes then g.nodes else g.nodes ++ [u]) ++ [v]) := by
      by_cases hadj : adjb g u v <;> simp only [hadj] at h <;>
        simp only [if_true, if_false, Bool.false_eq_true] at h <;>
        cases h <;> rfl
    rw [hnodes]
    by_cases hu : u ∈ g.nodes <;> by_cases hv0 : v ∈ g.nodes <;>
      simp [hu, hv0] <;> aesop

theorem add_edge_edges {g g2 : Graph} {u v : Nat}
    (h : add_edge g u v = .ok g2) :
    (adjb g u v = true ∧ g2.edges = g.edges) ∨
    (adjb g u v = false ∧ g2.edges = g.edges ++ [(u, v)]) := by
  unfold add_edge at h
  by_cases huv : u = v
  · rw [if_pos huv] at h
    exact absurd h (by simp)
  · rw [if_neg huv] at h
    by_cases hadj : adjb g u v
    · left
      refine ⟨hadj, ?_⟩
      simp only [hadj, if_true] at h
      cases h
      rfl
    · right
      refine ⟨Bool.of_not_eq_true hadj, ?_⟩
      simp only [hadj, Bool.false_eq_true, if_false] at h
      cases h
      rfl

theorem eq_of_normPair_eq {e f : Nat × Nat} (h : normPair e = normPair f) :
    e = f ∨ e = (f.2, f.1) := by
  have h1 : min e.1 e.2 = min f.1 f.2 := congrArg Prod.fst h
  have h2 : max e.1 e.2 = max f.1 f.2 := congrArg Prod.snd h
  rcases le_total e.1 e.2 with h3 | h3 <;> rcases le_total f.1 f.2 with h4 | h4
  · rw [min_eq_left h3, min_eq_left h4] at h1
    rw [max_eq_right h3, max_eq_right h4] at h2
    left
    exact Prod.ext h1 h2
  · rw [min_eq_left h3, min_eq_right h4] at h1
    rw [max_eq_right h3, max_eq_left h4] at h2
    right
    exact Prod.ext h1 h2
  · rw [min_eq_right h3, min_eq_left h4] at h1
    rw [max_eq_left h3, max_eq_right h4] at h2
    right
    exact Prod.ext h2 h1
  · rw [min_eq_right h3, min_eq_right h4] at h1
    rw [max_eq_left h3, max_eq_left h4] at h2
    left
    exact Prod.ext h2 h1

theorem not_adjb_normPair {g : Graph} {u v : Nat} (hadj : adjb g u v = false) :
    ∀ e ∈ g.edges, normPair e ≠ normPair (u, v) := by
  intro e he hnp
  unfold adjb at hadj
  rw [List.any_eq_false] at hadj
  have := hadj e he
  simp only [Bool.or_eq_true, Bool.and_eq_true, beq_iff_eq, not_or, not_and] at this
  rcases eq_of_normPair_eq hnp with h | h
  · rw [h] at this
    exact this.1 rfl rfl
  · have he2 : e = (v, u) := h
    rw [he2] at this
    exact this.2 rfl rfl

theorem add_edge_WF {g g2 : Graph} {u v : Nat} (hw : WF g)
    (h : add_edge g u v = .ok g2) : WF g2 := by
  have hnodes := add_edge_nodes h
  have huv : u ≠ v := by
    intro hh
    rw [hh, add_edge_self_loop] at h
    exact absurd h (by simp)
  have hnodes_nodup : g2.nodes.Nodup := by
    unfold add_edge at h
    rw [if_neg huv] at h
    have hns : g2.nodes =
        (if v ∈ (if u ∈ g.nodes then g.nodes else g.nodes ++ [u])
          then (if u ∈ g.nodes then g.nodes else g.nodes ++ [u])
          else (if u ∈ g.nodes then g.nodes else g.nodes ++ [u]) ++ [v]) := by
      by_cases hadj : adjb g u v <;> simp only [hadj] at h <;>
        simp only [if_true, if_false, Bool.false_eq_true] at h <;>
        cases h <;> rfl
    rw [hns]
    have h1 : (if u ∈ g.nodes then g.nodes else g.nodes ++ [u]).Nodup := by
      by_cases hu : u ∈ g.nodes
      · rw [if_pos hu]
        exact hw.1
      · rw [if_neg hu]
        simp [List.nodup_append, hw.1, hu]
    by_cases hv0 : v ∈ (if u ∈ g.nodes then g.nodes else g.nodes ++ [u])
    · rw [if_pos hv0]
      exact h1
    · rw [if_neg hv0]
      simp [List.nodup_append, h1, hv0]
  have hold_nodes : ∀ x ∈ g.nodes, x ∈ g2.nodes := by
    intro x hx
    exact (hnodes x).mpr (Or.inl hx)
  have humem : u ∈ g2.nodes := (hnodes u).mpr (Or.inr (Or.inl rfl))
  have hvmem : v ∈ g2.nodes := (hnodes v).mpr (Or.inr (Or.inr rfl))
  rcases add_edge_edges h with ⟨hadj, hedges⟩ | ⟨hadj, hedges⟩
  · refine ⟨hnodes_nodup, ?_, ?_, ?_⟩
    · rw [hedges]
      exact hw.2.1
    · rw [hedges]
      intro e he
      exact ⟨hold_nodes _ (hw.2.2.1 e he).1, hold_nodes _ (hw.2.2.1 e he).2⟩
    · rw [hedges]
      exact hw.2.2.2
  · refine ⟨hnodes_nodup, ?_, ?_, ?_⟩
    · rw [hedges]
      intro e he
      rcases List.mem_append.mp he with h2 | h2
      · exact hw.2.1 e h2
      · have : e = (u, v) := by simpa using h2
        rw [this]
        exact huv
    · rw [hedges]
      intro e he
      rcases List.mem_append.mp he with h2 | h2
      · exact ⟨hold_nodes _ (hw.2.2.1 e h2).1, hold_nodes _ (hw.2.2.1 e h2).2⟩
      · have : e = (u, v) := by simpa using h2
        rw [this]
        exact ⟨humem, hvmem⟩
    · rw [hedges, List.map_append]
      rw [List.nodup_append]
      refine ⟨hw.2.2.2, by simp, ?_⟩
      intro a ha hb
      obtain ⟨e, he, hea⟩ := List.mem_map.mp ha
      have : a = normPair (u, v) := by simpa using hb
      rw [this] at hea
      exact not_adjb_normPair hadj e he hea

theorem add_edge_incident {g g2 : Graph} {u v : Nat}
    (hprev : ∀ x ∈ g.nodes, ∃ e ∈ g.edges, e.1 = x ∨ e.2 = x)
    (h : add_edge g u v = .ok g2) :
    ∀ x ∈ g2.nodes, ∃ e ∈ g2.edges, e.1 = x ∨ e.2 = x := by
  have hedges_sub : ∀ e ∈ g.edges, e ∈ g2.edges := by
    rcases add_edge_edges h with ⟨_, hedges⟩ | ⟨_, hedges⟩ <;> rw [hedges] <;>
      intro e he <;> simp [he]
  intro x hx
  rcases (add_edge_nodes h x).mp hx with hold | hx2
  · obtain ⟨e, he, hor⟩ := hprev x hold
    exact ⟨e, hedges_sub e he, hor⟩
  · rcases add_edge_edges h with ⟨hadj, hedges⟩ | ⟨hadj, hedges⟩
    · unfold adjb at hadj
      rw [List.any_eq_true] at hadj
      obtain ⟨e, he, he2⟩ := hadj
      simp only [Bool.or_eq_true, Bool.and_eq_true, beq_iff_eq] at he2
      refine ⟨e, hedges_sub e he, ?_⟩
      rcases hx2 with hxu | hxv
      · rcases he2 with ⟨h1, _⟩ | ⟨_, h2⟩
        · exact Or.inl (by rw [h1, hxu])
        · exact Or.inr (by rw [h2, hxu])
      · rcases he2 with ⟨_, h2⟩ | ⟨h1, _⟩
        · exact Or.inr (by rw [h2, hxv])
        · exact Or.inl (by rw [h1, hxv])
    · refine ⟨(u, v), by rw [hedges]; simp, ?_⟩
      rcases hx2 with hxu | hxv
      · exact Or.inl hxu.symm
      · exact Or.inr hxv.symm

theorem foldl_add_edge_ok {es : List (Nat × Nat)} :
    ∀ (g0 : Graph),
      (∃ g, es.foldlM (fun g e => add_edge g e.1 e.2) g0 = .ok g) ↔
      ∀ e ∈ es, e.1 ≠ e.2 := by
  induction es with
  | nil =>
      intro g0
      constructor
      · intro _ e he
        exact absurd he (List.not_mem_nil e)
      · intro _
        exact ⟨g0, rfl⟩
  | cons e es ih =>
      intro g0
      rw [List.foldlM_cons]
      by_cases hee : e.1 = e.2
      · rw [show e.1 = e.2 from hee, add_edge_self_loop]
        constructor
        · rintro ⟨g, hg⟩
          have hg2 : (Except.error GraphError.invalidEdge : Except GraphError Graph) =
              .ok g := hg
          exact absurd hg2 (by simp)
        · intro hall
          exact absurd hee (hall e (List.mem_cons_self e es))
      · obtain ⟨g1, hg1⟩ := add_edge_ok_of_ne (g := g0) hee
        rw [hg1]
        constructor
        · rintro ⟨g, hg⟩
          intro f hf
          rcases List.mem_cons.mp hf with h | h
          · rw [h]
            exact hee
          · exact (ih g1).mp ⟨g, hg⟩ f h
        · intro hall
          obtain ⟨g, hg⟩ := (ih g1).mpr
            (fun f hf => hall f (List.mem_cons_of_mem e hf))
          exact ⟨g, hg⟩

theorem foldl_add_edge_error {es : List (Nat × Nat)} :
    ∀ (g0 : Graph) (err : GraphError),
      es.foldlM (fun g e => add_edge g e.1 e.2) g0 = .error err →
      err = .invalidEdge := by
  induction es with
  | nil =>
      intro g0 err h
      have h2 : (Except.ok g0 : Except GraphError Graph) = .error err := h
      exact absurd h2 (by simp)
  | cons e es ih =>
      intro g0 err h
      rw [List.foldlM_cons] at h
      match hh : add_edge g0 e.1 e.2 with
      | .error e2 =>
          rw [hh] at h
          have h2 : (Except.error e2 : Except GraphError Graph) = .error err := h
          cases h2
          exact (add_edge_error hh).2
      | .ok g1 =>
          rw [hh] at h
          exact ih g1 err h

theorem foldl_add_edge_nodes {es : List (Nat × Nat)} :
    ∀ (g0 g : Graph),
      es.foldlM (fun g e => add_edge g e.1 e.2) g0 = .ok g →
      ∀ x, x ∈ g.nodes ↔ x ∈ g0.nodes ∨ ∃ e ∈ es, e.1 = x ∨ e.2 = x := by
  induction es with
  | nil =>
      intro g0 g h x
      have : g0 = g := by simpa [pure, Except.pure] using h
      subst this
      simp
  | cons e es ih =>
      intro g0 g h x
      rw [List.foldlM_cons] at h
      match hh : add_edge g0 e.1 e.2 with
      | .error e2 =>
          rw [hh] at h
          have h2 : (Except.error e2 : Except GraphError Graph) = .ok g := h
          exact absurd h2 (by simp)
      | .ok g1 =>
          rw [hh] at h
          rw [ih g1 g h x]
          rw [add_edge_nodes hh x]
          constructor
          · rintro ((h2 | h2) | h2)
            · exact Or.inl h2
            · exact Or.inr ⟨e, List.mem_cons_self e es, by
                rcases h2 with h2 | h2 <;> [exact Or.inl h2.symm;
                  exact Or.inr h2.symm]⟩
            · obtain ⟨f, hf, hor⟩ := h2
              exact Or.inr ⟨f, List.mem_cons_of_mem e hf, hor⟩
          · rintro (h2 | ⟨f, hf, hor⟩)
            · exact Or.inl (Or.inl h2)
            · rcases List.mem_cons.mp hf with hfe | hfm
              · subst hfe
                rcases hor with h3 | h3 <;>
                  [exact Or.inl (Or.inr (Or.inl h3.symm));
                    exact Or.inl (Or.inr (Or.inr h3.symm))]
              · exact Or.inr ⟨f, hfm, hor⟩

theorem foldl_add_edge_WF {es : List (Nat × Nat)} :
    ∀ (g0 g : Graph), WF g0 →
      es.foldlM (fun g e => add_edge g e.1 e.2) g0 = .ok g → WF g := by
  induction es with
  | nil =>
      intro g0 g hw h
      have : g0 = g := by simpa [pure, Except.pure] using h
      exact this ▸ hw
  | cons e es ih =>
      intro g0 g hw h
      rw [List.foldlM_cons] at h
      match hh : add_edge g0 e.1 e.2 with
      | .error e2 =>
          rw [hh] at h
          have h2 : (Except.error e2 : Except GraphError Graph) = .ok g := h
          exact absurd h2 (by simp)
      | .ok g1 =>
          rw [hh] at h
          exact ih g1 g (add_edge_WF hw hh) h

theorem foldl_add_edge_incident {es : List (Nat × Nat)} :
    ∀ (g0 g : Graph),
      (∀ x ∈ g0.nodes, ∃ e ∈ g0.edges, e.1 = x ∨ e.2 = x) →
      es.foldlM (fun g e => add_edge g e.1 e.2) g0 = .ok g →
      ∀ x ∈ g.nodes, ∃ e ∈ g.edges, e.1 = x ∨ e.2 = x := by
  induction es with
  | nil =>
      intro g0 g hprev h
      have : g0 = g := by simpa [pure, Except.pure] using h
      exact this ▸ hprev
  | cons e es ih =>
      intro g0 g hprev h
      rw [List.foldlM_cons] at h
      match hh : add_edge g0 e.1 e.2 with
      | .error e2 =>
          rw [hh] at h
          have h2 : (Except.error e2 : Except GraphError Graph) = .ok g := h
          exact absurd h2 (by simp)
      | .ok g1 =>
          rw [hh] at h
          exact ih g1 g (add_edge_incident hprev hh) h

theorem from_edge_list_WF {es : List (Nat × Nat)} {g : Graph}
    (h : from_edge_list es = .ok g) : WF g :=
  foldl_add_edge_WF _ g
    (by constructor <;> simp [List.Nodup]) h

theorem from_edge_list_nodes {es : List (Nat × Nat)} {g : Graph}
    (h : from_edge_list es = .ok g) :
    ∀ x, x ∈ g.nodes ↔ ∃ e ∈ es, e.1 = x ∨ e.2 = x := by
  intro x
  rw [foldl_add_edge_nodes _ g h x]
  simp [Graph.nodes]

theorem from_edge_list_min_degree {es : List (Nat × Nat)} {g : Graph}
    (h : from_edge_list es = .ok g) : ∀ x ∈ g.nodes, 1 ≤ degree g x := by
  intro x hx
  have hw := from_edge_list_WF h
  obtain ⟨e, he, hor⟩ := foldl_add_edge_incident _ g
    (by intro x hx; exact absurd hx (by simp [Graph.nodes])) h x hx
  have hadj : ∃ y, adjb g x y = true := by
    rcases hor with h1 | h1
    · refine ⟨e.2, ?_⟩
      unfold adjb
      rw [List.any_eq_true]
      exact ⟨e, he, by simp [h1]⟩
    · refine ⟨e.1, ?_⟩
      unfold adjb
      rw [List.any_eq_true]
      exact ⟨e, he, by simp [h1]⟩
  obtain ⟨y, hy⟩ := hadj
  have hyn : y ∈ neighbors g x := mem_neighbors.mpr ⟨adjb_mem_right hw hy, hy⟩
  unfold degree
  exact List.length_pos.mpr (List.ne_nil_of_mem hyn)

/-! ## Maximal cliques: Bron–Kerbosch with pivoting -/

/-- The number of candidates adjacent to a potential pivot: the quantity
maximised when choosing a pivot. -/
def pivotScore (g : Graph) (P : List Nat) (w : Nat) : Nat :=
  (P.filter (fun v => adjb g w v)).length

/-- First argmax of the pivot score over a candidate list. -/
def argmaxAux (g : Graph) (P : List Nat) : List Nat → Nat → Nat
  | [], best => best
  | c :: cs, best =>
      if pivotScore g P best < pivotScore g P c then argmaxAux g P cs c
      else argmaxAux g P cs best

/-- The pivot: the member of `P ∪ X` with the most candidate neighbours. -/
def pickPivot (g : Graph) (P X : List Nat) : Nat :=
  match P ++ X with
  | [] => 0
  | c :: cs => argmaxAux g P cs c

mutual

/-- Modelled from the spec: the Bron–Kerbosch recursion with pivoting
(§4.4): `R` the current clique, `P` the candidates, `X` the excluded
set; emit `R` when both `P` and `X` are exhausted, otherwise branch on
every candidate not adjacent to the pivot. -/
def bkAux (g : Graph) : Nat → List Nat → List Nat → List Nat → List (List Nat)
  | 0, _, _, _ => []
  | fuel + 1, R, P, X =>
      if P.isEmpty then (if X.isEmpty then [R] else [])
      else
        bkLoop g fuel R P X (P.filter (fun v => !(adjb g (pickPivot g P X) v)))
termination_by fuel R P X => (fuel, 0)

/-- The candidate loop of Bron–Kerbosch: recurse on each viable
candidate in turn, moving it from `P` to `X` afterwards. -/
def bkLoop (g : Graph) :
    Nat → List Nat → List Nat → List Nat → List Nat → List (List Nat)
  | _, _, _, _, [] => []
  | fuel, R, P, X, v :: cands =>
      bkAux g fuel (R ++ [v]) ((P.erase v).filter (fun w => adjb g v w))
        (X.filter (fun w => adjb g v w)) ++
      bkLoop g fuel R (P.erase v) (v :: X) cands
termination_by fuel R P X cands => (fuel, cands.length + 1)

end

/-- Modelled from the spec: `find_cliques()` (§4.4) — the sequence of
maximal cliques via Bron–Kerbosch with pivoting; the empty graph yields
the empty sequence. -/
def find_cliques (g : Graph) : List (List Nat) :=
  if g.nodes.isEmpty then [] else bkAux g (node_count g + 1) [] g.nodes []

/-- The Bron–Kerbosch loop invariants. -/
structure BkInv (g : Graph) (R P X : List Nat) : Prop where
  r_clique : List.Pairwise (fun a b => adjb g a b = true) R
  r_sub : ∀ r ∈ R, r ∈ g.nodes
  p_inv : ∀ p ∈ P, p ∈ g.nodes ∧ p ∉ R ∧ ∀ r ∈ R, adjb g p r = true
  x_inv : ∀ x ∈ X, ∀ r ∈ R, adjb g x r = true
  complete : ∀ v ∈ g.nodes, v ∉ R → (∀ r ∈ R, adjb g v r = true) →
      v ∈ P ∨ v ∈ X
  p_nodup : P.Nodup

/-- Soundness target: a pairwise-adjacent node set with no external node
adjacent to all of it. -/
def GoodClique (g : Graph) (C : List Nat) : Prop :=
  (∀ a ∈ C, ∀ b ∈ C, a ≠ b → adjb g a b = true) ∧
  (∀ x ∈ C, x ∈ g.nodes) ∧
  (∀ v ∈ g.nodes, v ∉ C → ¬ ∀ c ∈ C, adjb g v c = true)

theorem pairwise_adj_all {g : Graph} {R : List Nat}
    (h : List.Pairwise (fun a b => adjb g a b = true) R) :
    ∀ a ∈ R, ∀ b ∈ R, a ≠ b → adjb g a b = true := by
  induction R with
  | nil =>
      intro a ha
      exact absurd ha (List.not_mem_nil a)
  | cons r rs ih =>
      rw [List.pairwise_cons] at h
      intro a ha b hb hab
      rcases List.mem_cons.mp ha with e1 | m1 <;>
        rcases List.mem_cons.mp hb with e2 | m2
      · exact absurd (e1.trans e2.symm) hab
      · exact e1 ▸ h.1 b m2
      · rw [adjb_comm]
        exact e2 ▸ h.1 a m1
      · exact ih h.2 a m1 b m2 hab

theorem bkInv_base_good {g : Graph} {R : List Nat}
    (inv : BkInv g R [] []) : GoodClique g R := by
  refine ⟨pairwise_adj_all inv.r_clique, inv.r_sub, ?_⟩
  intro v hv hvR hall
  rcases inv.complete v hv hvR hall with h | h <;>
    exact absurd h (List.not_mem_nil v)

theorem bkInv_branch {g : Graph} (hw : WF g) {R P X : List Nat} {v : Nat}
    (inv : BkInv g R P X) (hv : v ∈ P) :
    BkInv g (R ++ [v]) ((P.erase v).filter (fun w => adjb g v w))
      (X.filter (fun w => adjb g v w)) := by
  obtain ⟨hvn, hvR, hvadj⟩ := inv.p_inv v hv
  constructor
  · rw [List.pairwise_append]
    refine ⟨inv.r_clique, by simp, ?_⟩
    intro a ha b hb
    have : b = v := by simpa using hb
    subst this
    rw [adjb_comm]
    exact hvadj a ha
  · intro r hr
    rcases List.mem_append.mp hr with h | h
    · exact inv.r_sub r h
    · have : r = v := by simpa using h
      exact this ▸ hvn
  · intro p hp
    rw [List.mem_filter] at hp
    obtain ⟨hpe, hpadj⟩ := hp
    obtain ⟨hpv, hpP⟩ := (List.Nodup.mem_erase_iff inv.p_nodup).mp hpe
    obtain ⟨hpn, hpR, hpall⟩ := inv.p_inv p hpP
    refine ⟨hpn, ?_, ?_⟩
    · intro hmem
      rcases List.mem_append.mp hmem with h | h
      · exact hpR h
      · exact hpv (by simpa using h)
    · intro r hr
      rcases List.mem_append.mp hr with h | h
      · exact hpall r h
      · have : r = v := by simpa using h
        subst this
        rw [adjb_comm]
        exact hpadj
  · intro x hx r hr
    rw [List.mem_filter] at hx
    rcases List.mem_append.mp hr with h | h
    · exact inv.x_inv x hx.1 r h
    · have : r = v := by simpa using h
      subst this
      rw [adjb_comm]
      exact hx.2
  · intro w hwn hwR hwall
    have hwv : adjb g w v = true :=
      hwall v (List.mem_append_right _ (List.mem_singleton.mpr rfl))
    have hwv_ne : w ≠ v := adjb_ne hw hwv
    have hwR2 : w ∉ R := fun h => hwR (List.mem_append_left _ h)
    have hwall2 : ∀ r ∈ R, adjb g w r = true :=
      fun r hr => hwall r (List.mem_append_left _ hr)
    rcases inv.complete w hwn hwR2 hwall2 with h | h
    · left
      rw [List.mem_filter]
      refine ⟨(List.Nodup.mem_erase_iff inv.p_nodup).mpr ⟨hwv_ne, h⟩, ?_⟩
      rw [adjb_comm]
      exact hwv
    · right
      rw [List.mem_filter]
      refine ⟨h, ?_⟩
      rw [adjb_comm]
      exact hwv
  · exact (inv.p_nodup.erase v).filter _

theorem bkInv_shift {g : Graph} {R P X : List Nat} {v : Nat}
    (inv : BkInv g R P X) (hv : v ∈ P) :
    BkInv g R (P.erase v) (v :: X) := by
  obtain ⟨hvn, hvR, hvadj⟩ := inv.p_inv v hv
  constructor
  · exact inv.r_clique
  · exact inv.r_sub
  · intro p hp
    exact inv.p_inv p (List.mem_of_mem_erase hp)
  · intro x hx r hr
    rcases List.mem_cons.mp hx with e | m
    · exact e ▸ hvadj r hr
    · exact inv.x_inv x m r hr
  · intro w hwn hwR hwall
    rcases inv.complete w hwn hwR hwall with h | h
    · by_cases hwv : w = v
      · exact Or.inr (List.mem_cons.mpr (Or.inl hwv))
      · exact Or.inl ((List.Nodup.mem_erase_iff inv.p_nodup).mpr ⟨hwv, h⟩)
    · exact Or.inr (List.mem_cons_of_mem v h)
  · exact inv.p_nodup.erase v

theorem bkLoop_sound {g : Graph} (hw : WF g) (fuel : Nat)
    (Hbk : ∀ R P X, BkInv g R P X →
      ∀ C ∈ bkAux g fuel R P X, GoodClique g C) :
    ∀ (cands R P X : List Nat), BkInv g R P X → (∀ w ∈ cands, w ∈ P) →
      cands.Nodup →
      ∀ C ∈ bkLoop g fuel R P X cands, GoodClique g C := by
  intro cands
  induction cands with
  | nil =>
      intro R P X _ _ _ C hC
      rw [bkLoop] at hC
      exact absurd hC (List.not_mem_nil C)
  | cons v cs ih =>
      intro R P X inv hsub hnd C hC
      rw [bkLoop] at hC
      rcases List.mem_append.mp hC with h | h
      · exact Hbk _ _ _ (bkInv_branch hw inv (hsub v (List.mem_cons_self v cs))) C h
      · rw [List.nodup_cons] at hnd
        have hvP : v ∈ P := hsub v (List.mem_cons_self v cs)
        refine ih R (P.erase v) (v :: X) (bkInv_shift inv hvP) ?_ hnd.2 C h
        intro w hwc
        have hwP : w ∈ P := hsub w (List.mem_cons_of_mem v hwc)
        have hwv : w ≠ v := fun hh => hnd.1 (hh ▸ hwc)
        exact (List.Nodup.mem_erase_iff inv.p_nodup).mpr ⟨hwv, hwP⟩

theorem bkAux_sound {g : Graph} (hw : WF g) :
    ∀ (fuel : Nat) (R P X : List Nat), BkInv g R P X →
      ∀ C ∈ bkAux g fuel R P X, GoodClique g C := by
  intro fuel
  induction fuel with
  | zero =>
      intro R P X _ C hC
      rw [bkAux] at hC
      exact absurd hC (List.not_mem_nil C)
  | succ f ih =>
      intro R P X inv C hC
      rw [bkAux] at hC
      by_cases hP : P.isEmpty
      · rw [if_pos hP] at hC
        by_cases hX : X.isEmpty
        · rw [if_pos hX] at hC
          have hCR : C = R := by simpa using hC
          have hPe : P = [] := List.isEmpty_iff.mp hP
          have hXe : X = [] := List.isEmpty_iff.mp hX
          subst hPe
          subst hXe
          subst hCR
          exact bkInv_base_good inv
        · rw [if_neg hX] at hC
          exact absurd hC (List.not_mem_nil C)
      · rw [if_neg hP] at hC
        refine bkLoop_sound hw f ih _ R P X inv ?_ ?_ C hC
        · intro w hwc
          exact List.mem_of_mem_filter hwc
        · exact inv.p_nodup.filter _

theorem find_cliques_sound {g : Graph} (hw : WF g) :
    ∀ C ∈ find_cliques g, GoodClique g C := by
  intro C hC
  unfold find_cliques at hC
  by_cases hempty : g.nodes.isEmpty
  · rw [if_pos hempty] at hC
    exact absurd hC (List.not_mem_nil C)
  · rw [if_neg hempty] at hC
    refine bkAux_sound hw _ [] g.nodes [] ?_ C hC
    constructor
    · exact List.Pairwise.nil
    · intro r hr
      exact absurd hr (List.not_mem_nil r)
    · intro p hp
      exact ⟨hp, List.not_mem_nil p, fun r hr => absurd hr (List.not_mem_nil r)⟩
    · intro x hx
      exact absurd hx (List.not_mem_nil x)
    · intro v hv _ _
      exact Or.inl hv
    · exact hw.1

theorem find_cliques_empty {g : Graph} (h : g.nodes = []) :
    find_cliques g = [] := by
  unfold find_cliques
  rw [if_pos (List.isEmpty_iff.mpr h)]

/-! ## Community detection: Louvain modularity optimisation -/

/-- Weighted multilevel graph used by the Louvain contraction: edges
carry integer weights and contracted self-loops are allowed. -/
structure WGraph where
  nodes : List Nat
  edges : List ((Nat × Nat) × Nat)
deriving Repr

/-- Weighted degree of a node: incident edge weights, self-loops counted
twice. -/
def wdeg (h : WGraph) (v : Nat) : Nat :=
  (h.edges.map (fun e =>
    (if e.1.1 = v then e.2 else 0) + (if e.1.2 = v then e.2 else 0))).sum

/-- Twice the total edge weight of the graph. -/
def m2 (h : WGraph) : Nat :=
  (h.edges.map (fun e => 2 * e.2)).sum

/-- Current community label of a node under a label table (default: the
node is its own community). -/
def labelOf (labels : List (Nat × Nat)) (v : Nat) : Nat :=
  (labels.lookup v).getD v

/-- Total weighted degree of a community, a node excluded. -/
def sigmaTotWithout (h : WGraph) (labels : List (Nat × Nat)) (v c : Nat) :
    Nat :=
  ((h.nodes.filter (fun u => !(u == v) && (labelOf labels u == c))).map
    (wdeg h)).sum

/-- Total weight of the edges joining a node to a community, self-loops
excluded. -/
def wToComm (h : WGraph) (labels : List (Nat × Nat)) (v c : Nat) : Nat :=
  (h.edges.map (fun e =>
    if e.1.1 = v ∧ e.1.2 ≠ v ∧ labelOf labels e.1.2 = c then e.2
    else if e.1.2 = v ∧ e.1.1 ≠ v ∧ labelOf labels e.1.1 = c then e.2
    else 0)).sum

/-- The modularity gain of moving `v` into community `c`, up to the
common positive factor `1/m`: `w(v→c) - deg(v)·Σtot(c)/(2m)`. -/
def gain (h : WGraph) (labels : List (Nat × Nat)) (v c : Nat) : ℚ :=
  (wToComm h labels v c : ℚ) -
    ((wdeg h v : ℚ) * (sigmaTotWithout h labels v c : ℚ)) / (m2 h : ℚ)

/-- The other endpoints of the edges incident to a node (self-loops
dropped). -/
def wNeighbors (h : WGraph) (v : Nat) : List Nat :=
  h.edges.flatMap (fun e =>
    if e.1.1 = v ∧ e.1.2 ≠ v then [e.1.2]
    else if e.1.2 = v ∧ e.1.1 ≠ v then [e.1.1]
    else [])

/-- The communities neighbouring a node. -/
def candComms (h : WGraph) (labels : List (Nat × Nat)) (v : Nat) :
    List Nat :=
  ((wNeighbors h v).map (labelOf labels)).dedup

/-- The neighbouring community with the largest modularity gain, the
node's own community winning ties (first maximum in iteration order). -/
def bestComm (h : WGraph) (labels : List (Nat × Nat)) (v : Nat) : Nat :=
  (candComms h labels v).foldl
    (fun best c => if gain h labels v best < gain h labels v c then c else best)
    (labelOf labels v)

/-- Relabel one node, touching no other entry. -/
def setLabel (labels : List (Nat × Nat)) (v c : Nat) : List (Nat × Nat) :=
  labels.map (fun p => if p.1 = v then (p.1, c) else p)

/-- One pass over the nodes: each node moves to the community of largest
modularity gain; report whether anything moved. -/
def sweep (h : WGraph) :
    List Nat → List (Nat × Nat) → Bool → (List (Nat × Nat) × Bool)
  | [], labels, moved => (labels, moved)
  | v :: vs, labels, moved =>
      let c := bestComm h labels v
      if c = labelOf labels v then sweep h vs labels moved
      else sweep h vs (setLabel labels v c) true

/-- Modelled from the spec: phase 1 of Louvain (§4.5) — repeat local-move
passes until a full sweep moves nothing; report whether any move
happened at all. -/
def phase1 (h : WGraph) :
    Nat → List (Nat × Nat) → Bool → (List (Nat × Nat) × Bool)
  | 0, labels, any => (labels, any)
  | fuel + 1, labels, any =>
      match sweep h h.nodes labels false with
      | (labels2, false) => (labels2, any)
      | (labels2, true) => phase1 h fuel labels2 true

/-- Accumulate a weighted edge, merging with an existing entry for the
same unordered pair. -/
def addWEdge (e : (Nat × Nat) × Nat) :
    List ((Nat × Nat) × Nat) → List ((Nat × Nat) × Nat)
  | [] => [e]
  | f :: fs =>
      if normPair f.1 = normPair e.1 then (f.1, f.2 + e.2) :: fs
      else f :: addWEdge e fs

/-- Modelled from the spec: phase 2 of Louvain (§4.5) — contract each
community to a super-node, summing inter-community edge weights. -/
def contract (h : WGraph) (labels : List (Nat × Nat)) : WGraph :=
  { nodes := (h.nodes.map (labelOf labels)).dedup,
    edges := h.edges.foldl (fun acc e =>
      addWEdge ((labelOf labels e.1.1, labelOf labels e.1.2), e.2) acc) [] }

/-- Modelled from the spec: the outer Louvain loop (§4.5) — run phase 1,
stop when no move improves modularity, otherwise unroll the level labels
onto the original nodes, contract, and repeat. -/
def louvainAux : Nat → WGraph → List (Nat × Nat) → List (Nat × Nat)
  | 0, _, part => part
  | fuel + 1, h, part =>
      match phase1 h (h.nodes.length * (m2 h + 1) + 1)
          (h.nodes.map (fun v => (v, v))) false with
      | (_, false) => part
      | (labels, true) =>
          louvainAux fuel (contract h labels)
            (part.map (fun p => (p.1, labelOf labels p.2)))

/-- The unweighted graph viewed as a weighted one. -/
def toWGraph (g : Graph) : WGraph :=
  { nodes := g.nodes, edges := g.edges.map (fun e => (e, 1)) }

/-- Modelled from the spec: `best_partition()` (§4.5) — the flat
node-to-community-label mapping produced by Louvain. -/
def best_partition (g : Graph) : List (Nat × Nat) :=
  louvainAux (node_count g + 1) (toWGraph g) (g.nodes.map (fun v => (v, v)))

theorem map_fst_relabel (f : Nat → Nat) (part : List (Nat × Nat)) :
    (part.map (fun p => (p.1, f p.2))).map Prod.fst = part.map Prod.fst := by
  induction part with
  | nil => rfl
  | cons p ps ih => simp only [List.map_cons, ih]

theorem louvainAux_keys :
    ∀ (fuel : Nat) (h : WGraph) (part : List (Nat × Nat)),
      (louvainAux fuel h part).map Prod.fst = part.map Prod.fst := by
  intro fuel
  induction fuel with
  | zero =>
      intro h part
      rfl
  | succ f ih =>
      intro h part
      rw [louvainAux]
      match phase1 h (h.nodes.length * (m2 h + 1) + 1)
          (h.nodes.map (fun v => (v, v))) false with
      | (_, false) => rfl
      | (labels, true) =>
          rw [ih]
          exact map_fst_relabel _ part

theorem best_partition_keys (g : Graph) :
    (best_partition g).map Prod.fst = g.nodes := by
  unfold best_partition
  rw [louvainAux_keys]
  exact map_fst_map_pair 0 g.nodes |>.symm ▸ (by
    induction g.nodes with
    | nil => rfl
    | cons v vs ih => simp only [List.map_cons, ih])

theorem best_partition_unique_label {g : Graph} (hw : WF g) :
    ∀ x ∈ g.nodes, ∃! c, (x, c) ∈ best_partition g := by
  intro x hx
  have hkeys := best_partition_keys g
  have hnd : ((best_partition g).map Prod.fst).Nodup := by
    rw [hkeys]
    exact hw.1
  have hxk : x ∈ (best_partition g).map Prod.fst := by
    rw [hkeys]
    exact hx
  obtain ⟨c, hc⟩ := mem_keys_iff.mp hxk
  exact ⟨c, hc, fun c2 hc2 => (keys_nodup_eq hnd hc2 hc)⟩

/-! ## Betweenness centrality -/

/-- Number of shortest walks to a node at a given BFS distance, counted
layer by layer over the distance table. -/
def sigmaAux (g : Graph) (D : List (Nat × Nat)) : Nat → Nat → Nat
  | 0, _ => 1
  | k + 1, t =>
      (((neighbors g t).filter (fun w => D.lookup w == some k)).map
        (fun w => sigmaAux g D k w)).sum

/-- σ_st: the number of shortest paths between two nodes (0 when they
are not connected). -/
def sigmaST (g : Graph) (s t : Nat) : Nat :=
  match (bfsDist g s).lookup t with
  | none => 0
  | some k => sigmaAux g (bfsDist g s) k t

/-- σ_st(x): the number of shortest s–t paths passing through `x`. -/
def sigmaThrough (g : Graph) (s t x : Nat) : Nat :=
  match (bfsDist g s).lookup x, (bfsDist g x).lookup t,
      (bfsDist g s).lookup t with
  | some a, some b, some c =>
      if a + b = c then sigmaST g s x * sigmaST g x t else 0
  | _, _, _ => 0

/-- The per-pair contributions to the betweenness of `x`: for every
unordered pair `s < t` of nodes distinct from `x`, the pair
`(σ_st(x), σ_st)`. -/
def bcTerms (g : Graph) (x : Nat) : List (Nat × Nat) :=
  (g.nodes.flatMap (fun s =>
    (g.nodes.filter (fun t => s < t)).map (fun t => (s, t)))).filterMap
    (fun p =>
      if p.1 = x ∨ p.2 = x then none
      else some (sigmaThrough g p.1 p.2 x, sigmaST g p.1 p.2))

/-- Modelled from the spec: `betweenness_centrality` (§4.3) — the sum of
`σ_st(x)/σ_st` over unordered pairs `s,t` with `s≠t≠x`, normalised by
`(n-1)(n-2)/2`. -/
def betweenness_centrality (g : Graph) (x : Nat) : ℚ :=
  ((bcTerms g x).map
      (fun q => if q.2 = 0 then 0 else (q.1 : ℚ) / (q.2 : ℚ))).sum /
    (((node_count g : ℚ) - 1) * ((node_count g : ℚ) - 2) / 2)

/-- The star graph of the spec example: centre `0`, leaves `1..5`. -/
def starGraph : Graph :=
  { nodes := [0, 1, 2, 3, 4, 5],
    edges := [(0, 1), (0, 2), (0, 3), (0, 4), (0, 5)] }

theorem starGraph_built :
    from_edge_list [(0, 1), (0, 2), (0, 3), (0, 4), (0, 5)] = .ok starGraph :=
  rfl

theorem starGraph_center_bc : betweenness_centrality starGraph 0 = 1 := by
  have hterms : bcTerms starGraph 0 =
      [(1, 1), (1, 1), (1, 1), (1, 1), (1, 1), (1, 1), (1, 1), (1, 1),
        (1, 1), (1, 1)] := by decide
  rw [betweenness_centrality, hterms]
  norm_num [node_count, starGraph]

theorem starGraph_leaf_bc : ∀ v ∈ [1, 2, 3, 4, 5],
    betweenness_centrality starGraph v = 0 := by
  have h1 : bcTerms starGraph 1 =
      [(0, 1), (0, 1), (0, 1), (0, 1), (0, 1), (0, 1), (0, 1), (0, 1),
        (0, 1), (0, 1)] := by decide
  have h2 : bcTerms starGraph 2 =
      [(0, 1), (0, 1), (0, 1), (0, 1), (0, 1), (0, 1), (0, 1), (0, 1),
        (0, 1), (0, 1)] := by decide
  have h3 : bcTerms starGraph 3 =
      [(0, 1), (0, 1), (0, 1), (0, 1), (0, 1), (0, 1), (0, 1), (0, 1),
        (0, 1), (0, 1)] := by decide
  have h4 : bcTerms starGraph 4 =
      [(0, 1), (0, 1), (0, 1), (0, 1), (0, 1), (0, 1), (0, 1), (0, 1),
        (0, 1), (0, 1)] := by decide
  have h5 : bcTerms starGraph 5 =
      [(0, 1), (0, 1), (0, 1), (0, 1), (0, 1), (0, 1), (0, 1), (0, 1),
        (0, 1), (0, 1)] := by decide
  intro v hv
  fin_cases hv
  · rw [betweenness_centrality, h1]
    norm_num
  · rw [betweenness_centrality, h2]
    norm_num
  · rw [betweenness_centrality, h3]
    norm_num
  · rw [betweenness_centrality, h4]
    norm_num
  · rw [betweenness_centrality, h5]
    norm_num

/-! ## Example graphs -/

/-- The one-node graph: the degenerate case of the density and
degree-centrality normalisations. -/
def oneNodeGraph : Graph :=
  { nodes := [0], edges := [] }

/-- The graph with no nodes at all. -/
def emptyGraph : Graph :=
  { nodes := [], edges := [] }

/-- The §8 example graph, with edge set {(1,2),(2,3),(3,1),(4,5)}: a
triangle and a disjoint edge. -/
def exGraph : Graph :=
  { nodes := [1, 2, 3, 4, 5],
    edges := [(1, 2), (2, 3), (3, 1), (4, 5)] }

theorem exGraph_built :
    from_edge_list [(1, 2), (2, 3), (3, 1), (4, 5)] = .ok exGraph :=
  rfl

/-! ## The claims -/

/-- C1: on every graph with more than one connected component (that is,
with some pair of nodes not mutually reachable — equivalently, with more
than one set in `connected_components`), `average_shortest_path_length`
fails with `DisconnectedGraphError` and returns no value; on every
connected graph with at least two nodes it returns the sum of the true
shortest-path distances `d(i,j)` over all `n·(n-1)` ordered pairs of
distinct nodes, divided by `n·(n-1)`. -/
theorem claim_C1 (g : Graph) (hw : WF g) :
    (1 < (connected_components g).length ↔ ¬ AllConnected g) ∧
    (¬ AllConnected g →
      average_shortest_path_length g = .error .disconnectedGraph) ∧
    (AllConnected g → 2 ≤ node_count g →
      average_shortest_path_length g =
        .ok (((pairDists g).sum : ℚ) /
          ((node_count g : ℚ) * ((node_count g : ℚ) - 1))) ∧
      (pairDists g).length = node_count g * (node_count g - 1) ∧
      ∀ i ∈ g.nodes, ∀ j ∈ g.nodes, i ≠ j → DistSpec g i j (sdist g i j)) := by
  refine ⟨?_, fun hd => avg_spl_error hw hd, ?_⟩
  · rw [← comps_length_le_one_iff hw]
    omega
  · intro hconn _
    refine ⟨avg_spl_ok hw hconn, pairDists_length hw, ?_⟩
    intro i hi j hj _
    exact sdist_spec hw (hconn i hi j hj)

theorem claim_C1_witness :
    WF exGraph ∧
    average_shortest_path_length exGraph = .error .disconnectedGraph := by
  have hw : WF exGraph := by decide
  refine ⟨hw, (claim_C1 exGraph hw).2.1 ?_⟩
  intro hall
  have h2 := (comps_length_le_one_iff hw).mpr hall
  exact absurd h2 (by decide)

/-- C2: `connected_components` partitions the node set — every component
member is a node, every node lies in some component, the returned sets
are pairwise disjoint, any two nodes in the same set are mutually
reachable, and no node of one set is reachable from a node of a
different one. -/
theorem claim_C2 (g : Graph) (hw : WF g) :
    (∀ C ∈ connected_components g, ∀ x ∈ C, x ∈ g.nodes) ∧
    (∀ x ∈ g.nodes, ∃ C ∈ connected_components g, x ∈ C) ∧
    List.Pairwise (fun C1 C2 => ∀ x, x ∈ C1 → x ∉ C2)
      (connected_components g) ∧
    (∀ C ∈ connected_components g, ∀ x ∈ C, ∀ y ∈ C, Reachable g x y) ∧
    List.Pairwise (fun C1 C2 => ∀ x ∈ C1, ∀ y ∈ C2, ¬ Reachable g x y)
      (connected_components g) := by
  obtain ⟨h1, h2, h3⟩ := connected_components_spec hw
  refine ⟨?_, h2, ?_, ?_, h3⟩
  · intro C hC
    exact (h1 C hC).2.2
  · refine h3.imp ?_
    intro C1 C2 hno x hx1 hx2
    exact hno x hx1 x hx2 (reachable_refl g x)
  · intro C hC x hx y hy
    obtain ⟨⟨r, _, hr⟩, _, _⟩ := h1 C hC
    exact reachable_trans (reachable_symm ((hr x).mp hx)) ((hr y).mp hy)

theorem claim_C2_witness :
    WF exGraph ∧ ∃ C ∈ connected_components exGraph, 1 ∈ C :=
  ⟨by decide, (claim_C2 exGraph (by decide)).2.1 1 (by decide)⟩

/-- C3 counterexample: on the one-node graph the claim's biconditional
fails — the graph is (vacuously) complete, yet its density is `0`, not
`1`. -/
theorem claim_C3_counterexample :
    WF oneNodeGraph ∧ IsComplete oneNodeGraph ∧
    density oneNodeGraph = 0 ∧ density oneNodeGraph ≠ 1 := by
  have hd : density oneNodeGraph = 0 := by
    unfold density
    rw [if_pos (by decide)]
  exact ⟨by decide, by decide, hd, by rw [hd]; norm_num⟩

/-- C3 (amended): `density` equals
`edge_count / (node_count·(node_count-1)/2)` for `node_count ≥ 2` and
`0` for `node_count < 2`; it always lies in `[0,1]`; and for every graph
with at least two nodes it equals `1` exactly when the graph is
complete.  (The original biconditional is restricted to `n ≥ 2`: a
graph with fewer than two nodes is vacuously complete while its density
is defined to be `0`.) -/
theorem claim_C3 (g : Graph) (hw : WF g) :
    (node_count g < 2 → density g = 0) ∧
    (2 ≤ node_count g →
      density g = (edge_count g : ℚ) /
        (((node_count g : ℚ) * ((node_count g : ℚ) - 1)) / 2)) ∧
    0 ≤ density g ∧ density g ≤ 1 ∧
    (2 ≤ node_count g → (density g = 1 ↔ IsComplete g)) := by
  refine ⟨?_, ?_, density_nonneg g, density_le_one hw,
    fun h => density_eq_one_iff hw h⟩
  · intro h
    unfold density
    rw [if_pos h]
  · intro h
    unfold density
    rw [if_neg (by omega)]

theorem claim_C3_witness :
    WF exGraph ∧ 0 ≤ density exGraph ∧ density exGraph ≤ 1 :=
  ⟨by decide, (claim_C3 exGraph (by decide)).2.2.1,
    (claim_C3 exGraph (by decide)).2.2.2.1⟩

/-- C4 counterexample: on the one-node graph with its sole node `0` the
claim's biconditional fails — `0` is (vacuously) adjacent to every other
node, yet its degree centrality is `0`, not `1`. -/
theorem claim_C4_counterexample :
    WF oneNodeGraph ∧ 0 ∈ oneNodeGraph.nodes ∧
    (∀ v ∈ oneNodeGraph.nodes, v ≠ 0 → adjb oneNodeGraph 0 v = true) ∧
    degree_centrality oneNodeGraph 0 = 0 ∧
    degree_centrality oneNodeGraph 0 ≠ 1 := by
  have hd : degree_centrality oneNodeGraph 0 = 0 := by
    unfold degree_centrality
    rw [if_pos (by decide)]
  exact ⟨by decide, by decide, by decide, hd, by rw [hd]; norm_num⟩

/-- C4 (amended): `degree_centrality(u)` equals `degree(u)/(n-1)` for
`n > 1` and `0` for `n ≤ 1`; it always lies in `[0,1]`; and on every
graph with more than one node it equals `1` exactly when `u` is adjacent
to every other node.  (The original biconditional is restricted to
`n > 1`: on a one-node graph its sole node is vacuously adjacent to
every other node while its centrality is defined to be `0`.) -/
theorem claim_C4 (g : Graph) (hw : WF g) (u : Nat) :
    (node_count g ≤ 1 → degree_centrality g u = 0) ∧
    (1 < node_count g →
      degree_centrality g u = (degree g u : ℚ) / ((node_count g : ℚ) - 1)) ∧
    0 ≤ degree_centrality g u ∧ degree_centrality g u ≤ 1 ∧
    (2 ≤ node_count g →
      (degree_centrality g u = 1 ↔
        ∀ v ∈ g.nodes, v ≠ u → adjb g u v = true)) := by
  refine ⟨?_, ?_, degree_centrality_nonneg g u, degree_centrality_le_one hw u,
    fun h => degree_centrality_eq_one_iff hw h u⟩
  · intro h
    unfold degree_centrality
    rw [if_pos h]
  · intro h
    unfold degree_centrality
    rw [if_neg (by omega)]

theorem claim_C4_witness :
    WF exGraph ∧ 0 ≤ degree_centrality exGraph 1 ∧
    degree_centrality exGraph 1 ≤ 1 :=
  ⟨by decide, (claim_C4 exGraph (by decide) 1).2.2.1,
    (claim_C4 exGraph (by decide) 1).2.2.2.1⟩

/-- C5: `shortest_path(u,v)` fails with `NoPathError` exactly when `v`
is unreachable from `u`; otherwise it returns a path (distinct nodes,
consecutive ones adjacent) from `u` to `v` whose length is minimal among
all walks from `u` to `v`.  The tie-break is the first shortest path in
BFS frontier-expansion order, and the function is deterministic by
construction. -/
theorem claim_C5 (g : Graph) (u v : Nat) (hw : WF g) :
    (shortest_path g u v = .error .noPath ↔ ¬ Reachable g u v) ∧
    (Reachable g u v → ∃ p, shortest_path g u v = .ok p ∧
      IsPathList g u v p ∧
      ∀ q, IsWalkList g u v q → p.length ≤ q.length) :=
  ⟨shortest_path_error_iff hw u v, fun h => shortest_path_ok hw h⟩

theorem claim_C5_witness :
    WF exGraph ∧ (∃ p, shortest_path exGraph 4 5 = .ok p ∧
      IsPathList exGraph 4 5 p ∧
      ∀ q, IsWalkList exGraph 4 5 q → p.length ≤ q.length) :=
  ⟨by decide, (claim_C5 exGraph 4 5 (by decide)).2
    ⟨1, WalkLen.tail (WalkLen.refl 4) (by decide)⟩⟩

/-- C6: every node-set produced by `find_cliques` is pairwise adjacent,
consists of graph nodes, and is maximal — no proper superset drawn from
the node set is also pairwise adjacent; and the empty graph yields the
empty sequence. -/
theorem claim_C6 (g : Graph) (hw : WF g) :
    (∀ C ∈ find_cliques g,
      (∀ a ∈ C, ∀ b ∈ C, a ≠ b → adjb g a b = true) ∧
      (∀ x ∈ C, x ∈ g.nodes) ∧
      (∀ S : List Nat, (∀ s ∈ S, s ∈ g.nodes) →
        (∀ a ∈ S, ∀ b ∈ S, a ≠ b → adjb g a b = true) →
        (∀ c ∈ C, c ∈ S) → ∀ s ∈ S, s ∈ C)) ∧
    (g.nodes = [] → find_cliques g = []) := by
  refine ⟨?_, find_cliques_empty⟩
  intro C hC
  obtain ⟨hadj, hsub, hmax⟩ := find_cliques_sound hw C hC
  refine ⟨hadj, hsub, ?_⟩
  intro S hSn hSadj hCS s hs
  by_contra hsC
  refine hmax s (hSn s hs) hsC ?_
  intro c hc
  exact hSadj s hs c (hCS c hc) (fun h => hsC (h ▸ hc))

theorem claim_C6_witness :
    WF emptyGraph ∧ find_cliques emptyGraph = [] :=
  ⟨by decide, (claim_C6 emptyGraph (by decide)).2 rfl⟩

/-- C7: `best_partition` assigns a community label to every node of the
graph exactly once — the keys of the returned mapping are exactly the
node list, and each node has a unique labelled entry, so grouping nodes
by label yields a partition of the node set. -/
theorem claim_C7 (g : Graph) (hw : WF g) :
    (best_partition g).map Prod.fst = g.nodes ∧
    ∀ x ∈ g.nodes, ∃! c, (x, c) ∈ best_partition g :=
  ⟨best_partition_keys g, best_partition_unique_label hw⟩

theorem claim_C7_witness :
    WF exGraph ∧ (best_partition exGraph).map Prod.fst = exGraph.nodes :=
  ⟨by decide, (claim_C7 exGraph (by decide)).1⟩

/-- C8: on the star graph with centre `0` and leaves `1..5`, the
betweenness centrality of `0` is the maximum over all nodes, and every
leaf has betweenness `0`. -/
theorem claim_C8 :
    (∀ v ∈ starGraph.nodes,
      betweenness_centrality starGraph v ≤ betweenness_centrality starGraph 0) ∧
    (∀ v ∈ starGraph.nodes, v ≠ 0 →
      betweenness_centrality starGraph v = 0) := by
  have hleaf := starGraph_leaf_bc
  have hcenter := starGraph_center_bc
  constructor
  · intro v hv
    fin_cases hv
    · exact le_refl _
    all_goals rw [hcenter, hleaf _ (by decide)]; norm_num
  · intro v hv hne
    fin_cases hv
    · exact absurd rfl hne
    all_goals exact hleaf _ (by decide)

theorem claim_C8_witness :
    betweenness_centrality starGraph 1 = 0 ∧
    betweenness_centrality starGraph 1 ≤ betweenness_centrality starGraph 0 :=
  ⟨claim_C8.2 1 (by decide) (by decide), claim_C8.1 1 (by decide)⟩

/-- C9: submitting a self-loop is rejected — `add_edge(u,u)` fails with
`InvalidEdgeError` and no modified graph is produced; consistently,
bulk-loading succeeds exactly when the input has no self-loop, and the
only error a bulk load can fail with is `InvalidEdgeError`. -/
theorem claim_C9 (g : Graph) (u : Nat) (es : List (Nat × Nat)) :
    add_edge g u u = .error .invalidEdge ∧
    ((∃ g2, from_edge_list es = .ok g2) ↔ ∀ e ∈ es, e.1 ≠ e.2) ∧
    (∀ err, from_edge_list es = .error err → err = .invalidEdge) :=
  ⟨add_edge_self_loop g u, foldl_add_edge_ok _,
    fun err h => foldl_add_edge_error _ err h⟩

theorem claim_C9_witness :
    add_edge oneNodeGraph 0 0 = .error .invalidEdge :=
  (claim_C9 oneNodeGraph 0 [(0, 0)]).1

/-- C10: in a graph built by bulk-loading an edge list into the empty
graph, a node is present exactly when it occurs in some loaded edge, and
consequently every node has degree at least `1`. -/
theorem claim_C10 (es : List (Nat × Nat)) (g : Graph)
    (h : from_edge_list es = .ok g) :
    (∀ x, x ∈ g.nodes ↔ ∃ e ∈ es, e.1 = x ∨ e.2 = x) ∧
    (∀ x ∈ g.nodes, 1 ≤ degree g x) :=
  ⟨from_edge_list_nodes h, from_edge_list_min_degree h⟩

theorem claim_C10_witness :
    from_edge_list [(1, 2), (2, 3), (3, 1), (4, 5)] = .ok exGraph ∧
    1 ≤ degree exGraph 1 :=
  ⟨rfl, (claim_C10 [(1, 2), (2, 3), (3, 1), (4, 5)] exGraph rfl).2 1 (by decide)⟩

end NetworkAnalysis
